import Mathlib

/-!
Verification of the Twister HTTP server core against its specification.

The Go sources are shallowly embedded: byte strings become `List Nat`
(each element a byte value 0..255), Go `int` becomes `Int` where sign
matters and `Nat` where the source guarantees non-negativity, `os.Error`
results become `Option Err` (`none` = nil error) or `Option`/`Except`
results, and the per-connection mutable `transaction` struct becomes an
explicit state record threaded through the reader/writer functions.
-/

namespace Twister

/-- Byte strings: Go `[]byte` / `string` values, one `Nat` per byte. -/
abbrev Bytes := List Nat

/-- ASCII string literal to byte string (all literals used are ASCII). -/
def str (s : String) : Bytes := s.data.map Char.toNat

/-- Error kinds used by the embedded code (`os.Error` values in Go).
`eof` is `os.EOF`; `unexpectedEof` is `io.ErrUnexpectedEOF`;
`badChunked` is the "twister: bad chunked format" error; `parseNum` stands
for `strconv` parse errors; `hang` marks a diverging loop (never reached
under the preconditions proved below). -/
inductive Err where
  | eof
  | unexpectedEof
  | invalidState
  | badChunked
  | badFormat
  | parseNum
  | verifyFailed
  | hang
deriving DecidableEq, Repr

/-! ### Header quoting — `QuoteHeaderValue` / `UnquoteHeaderValue`
(src/unnamed/part_003).  Byte values: 34 = double quote, 92 = backslash. -/

/-- The escaping loop of `QuoteHeaderValue`: backslash and double quote are
preceded by a backslash, every other byte is copied. -/
def quoteEscape : Bytes → Bytes
  | [] => []
  | c :: rest => (if c = 92 ∨ c = 34 then [92, c] else [c]) ++ quoteEscape rest

/-- Model of `QuoteHeaderValue` from part_003: write a quote, the escaped bytes, a quote. -/
def QuoteHeaderValue (s : Bytes) : Bytes := 34 :: (quoteEscape s ++ [34])

/-- The inner loop of `UnquoteHeaderValue` once a backslash was seen: the
`escape` flag is set after an unescaped backslash, and the byte following it
is copied verbatim. -/
def unescapeFrom : Bytes → Bool → Bytes
  | [], _ => []
  | b :: rest, true => b :: unescapeFrom rest false
  | b :: rest, false =>
      if b = 92 then unescapeFrom rest true else b :: unescapeFrom rest false

/-- The body of `UnquoteHeaderValue` after the surrounding quotes are
stripped: bytes are copied until the first backslash, from which point the
escape-resolving loop runs (Go writes `s[:i]` to the buffer and continues
with `escape = true`). -/
def unquoteInner : Bytes → Bytes
  | [] => []
  | b :: rest => if b = 92 then unescapeFrom rest true else b :: unquoteInner rest

/-- Model of `UnquoteHeaderValue` from part_003: if the value has at least two bytes
and is surrounded by double quotes, strip them and resolve backslash
escapes; otherwise return the value unchanged. -/
def UnquoteHeaderValue (s : Bytes) : Bytes :=
  if s.length < 2 ∨ s.head? ≠ some 34 ∨ s.getLast? ≠ some 34 then s
  else unquoteInner ((s.drop 1).dropLast)

/-! ### URL-encoded form parsing — `ParamMap.ParseFormEncodedBytes`
(src/web/parammap.go).  Byte values: 61 `=`, 38 `&`, 37 `%`, 43 `+`,
32 space.  The Go routine rewrites its input buffer in place with a write
index `j ≤ i`; since reads only happen at `i`, `i+1`, `i+2`, the buffer
`p[0:j]` is modelled as the accumulated list `buf`.  `ParamMap.Add` appends
to the per-key value slice, so the result is the ordered list of
(key, value) pairs added; `none` models `ErrBadFormat`. -/

/-- Model of `dehex` from parammap.go; `none` models the `notHex` sentinel. -/
def dehex (c : Nat) : Option Nat :=
  if 48 ≤ c ∧ c ≤ 57 then some (c - 48)
  else if 97 ≤ c ∧ c ≤ 102 then some (c - 97 + 10)
  else if 65 ≤ c ∧ c ≤ 70 then some (c - 65 + 10)
  else none

/-- The main loop of `ParseFormEncodedBytes`.  `key` is the last name seen
before an `=`, `buf` is `p[0:j]`, `acc` the pairs added so far.  On `=` the
accumulated bytes become the key; on `&` the pair is added (even with empty
key); `%xx` percent-decodes or fails; `+` becomes space; at the end of the
input the pending pair is added only when `key` is non-empty. -/
def parseFormLoop : Bytes → Bytes → Bytes → List (Bytes × Bytes) →
    Option (List (Bytes × Bytes))
  | [], key, buf, acc =>
      if key ≠ [] then some (acc ++ [(key, buf)]) else some acc
  | c :: rest, key, buf, acc =>
      if c = 61 then parseFormLoop rest buf [] acc
      else if c = 38 then parseFormLoop rest [] [] (acc ++ [(key, buf)])
      else if c = 37 then
        match rest with
        | a :: b :: rest2 =>
            match dehex a, dehex b with
            | some x, some y => parseFormLoop rest2 key (buf ++ [x * 16 + y]) acc
            | _, _ => none
        | _ => none
      else if c = 43 then parseFormLoop rest key (buf ++ [32]) acc
      else parseFormLoop rest key (buf ++ [c]) acc

/-- Model of `ParamMap.ParseFormEncodedBytes`: parse a URL-encoded form into the
ordered list of (key, value) pairs added to the map; `none` = `ErrBadFormat`. -/
def ParseFormEncodedBytes (p : Bytes) : Option (List (Bytes × Bytes)) :=
  parseFormLoop p [] [] []

/-! ### Cookie parsing — `parseCookieValues` (src/web/misc.go).
Byte values: 32 space, 9 tab, 61 `=`, 59 `;`.  The Go loop walks one header
value `s` with indices `begin`/`end` and a `key` string; slices `s[b:e]`
are modelled by `cookieSlice`.  `m.Add` appends, so the map is modelled as
the ordered list of (key, value) pairs. -/

/-- The Go slice `s[b:e]`. -/
def cookieSlice (s : Bytes) (b e : Nat) : Bytes := (s.take e).drop b

/-- The per-value loop of `parseCookieValues`: whitespace before an item is
skipped, the first `=` of an item splits name from value, `;` terminates an
item (added only when the name is non-empty and the value slice non-empty),
and a pending item is added at the end of the string under the same test.
The Go loop walks the index `i` over `s`; here the first list argument is
the remaining suffix `s.drop i`, recursed structurally, while `i`, `b`, `e`
keep indexing into the full `s` for the slices. -/
def parseCookieLoop (s : Bytes) : Bytes → Nat → Bytes → Nat → Nat →
    List (Bytes × Bytes) → List (Bytes × Bytes)
  | [], _, key, b, e, acc =>
      if key ≠ [] ∧ b < e then acc ++ [(key, cookieSlice s b e)] else acc
  | c :: rest, i, key, b, e, acc =>
      if c = 32 ∨ c = 9 then
        if b = e then parseCookieLoop s rest (i + 1) key (i + 1) (i + 1) acc
        else parseCookieLoop s rest (i + 1) key b e acc
      else if c = 61 then
        if key = [] then
          parseCookieLoop s rest (i + 1) (cookieSlice s b e) (i + 1) (i + 1) acc
        else parseCookieLoop s rest (i + 1) key b (e + 1) acc
      else if c = 59 then
        parseCookieLoop s rest (i + 1) [] (i + 1) (i + 1)
          (if key ≠ [] ∧ b < e then acc ++ [(key, cookieSlice s b e)] else acc)
      else parseCookieLoop s rest (i + 1) key b (i + 1) acc

/-- Model of `parseCookieValues`: parse every `Cookie` header value, appending the
recognized pairs to `m`.  The second component is the returned `os.Error`,
which the source produces with a single unconditional `return nil`. -/
def parseCookieValues (values : List Bytes) (m : List (Bytes × Bytes)) :
    List (Bytes × Bytes) × Option Err :=
  (values.foldl (fun acc s => parseCookieLoop s s 0 [] 0 0 acc) m, none)

/-! ### WebSocket key extraction — `webSocketKey` (src/web/test.go,
websocket part).  Byte values: 32 space, 48..57 digits. -/

/-- The digit/space loop of `webSocketKey`: `n` is a Go `uint32`
(arithmetic mod 2^32) accumulating decimal digits by `n = n*10 + digit`,
`d` counts space bytes. -/
def webSocketKeyLoop : Bytes → Nat → Nat → Nat × Nat
  | [], n, d => (n, d)
  | b :: rest, n, d =>
      if b = 32 then webSocketKeyLoop rest n (d + 1)
      else if 48 ≤ b ∧ b ≤ 57 then
        webSocketKeyLoop rest ((n * 10 + (b - 48)) % 4294967296) d
      else webSocketKeyLoop rest n d

/-- Model of `binary.BigEndian.PutUint32`: the four big-endian bytes of a `uint32`. -/
def be32 (x : Nat) : Bytes :=
  [x / 16777216 % 256, x / 65536 % 256, x / 256 % 256, x % 256]

/-- Model of `webSocketKey` applied to the raw header value `s` (the caller fetches
`req.Header.Get(name)`; a missing header yields the empty string).  `none`
models both error returns ("missing key" and "bad key"). -/
def webSocketKey (s : Bytes) : Option Bytes :=
  if s = [] then none
  else
    let nd := webSocketKeyLoop s 0 0
    if nd.2 = 0 ∨ nd.1 % nd.2 ≠ 0 then none
    else some (be32 (nd.1 / nd.2))

/-- Spec-side description of the claim's `N` ("summing all decimal digits"):
the plain sum of the decimal digit values of the header value. -/
def webSocketKeyDigitSum (s : Bytes) : Nat :=
  (s.filter (fun b => 48 ≤ b ∧ b ≤ 57)).foldl (fun n b => n + (b - 48)) 0

/-- Clean restatement of the number the code builds: the decimal digits of
`s` in order, read as a base-10 number, reduced mod 2^32 at each step. -/
def webSocketKeyNumber (s : Bytes) : Nat :=
  (s.filter (fun b => 48 ≤ b ∧ b ≤ 57)).foldl
    (fun n b => (n * 10 + (b - 48)) % 4294967296) 0

/-- Number of space bytes in a key header value. -/
def webSocketKeySpaces (s : Bytes) : Nat := s.count 32

/-! ### Signed values — `signature`, `SignValue`, `VerifyValue`
(src/web/misc.go).  The HMAC-SHA1 primitive comes from Go's crypto
library, not this repository; it is abstracted as a parameter
`mac : Bytes → Bytes → Bytes` (secret, message ↦ digest).  `hex.EncodeToString`,
`strconv.Itob64(_, 16)` and `strconv.Btoi64(_, 16)` are Go standard library
functions modelled here for the non-negative values the code feeds them.
Byte value 126 is `~`. -/

/-- Lowercase hex digit for a value below 16 (`"0123456789abcdef"[x]`). -/
def hexDigitChar (x : Nat) : Nat := if x < 10 then 48 + x else 87 + x

/-- Is this byte a lowercase hex digit character? -/
def isHexDigitChar (c : Nat) : Prop := (48 ≤ c ∧ c ≤ 57) ∨ (97 ≤ c ∧ c ≤ 102)

instance (c : Nat) : Decidable (isHexDigitChar c) := by
  unfold isHexDigitChar; infer_instance

/-- Model of `hex.EncodeToString`: two lowercase hex digits per input byte. -/
def hexEncode : Bytes → Bytes
  | [] => []
  | b :: rest => hexDigitChar (b / 16) :: hexDigitChar (b % 16) :: hexEncode rest

/-- Digit-emitting loop of `strconv.Itob64(x, 16)` for positive `x`:
prepends the hex digits of `x` to `acc`.  The first argument is recursion
fuel (any amount at least `x` is enough, since `x` shrinks to `x / 16`
each step). -/
def toHexAux : Nat → Nat → Bytes → Bytes
  | 0, _, acc => acc
  | f + 1, x, acc =>
      if x = 0 then acc
      else toHexAux f (x / 16) (hexDigitChar (x % 16) :: acc)

/-- Model of `strconv.Itob64(x, 16)` for non-negative `x`: minimal-length lowercase
hex, with `"0"` for zero. -/
def toHex (x : Nat) : Bytes := if x = 0 then [48] else toHexAux x x []

/-- Hex digit value accepted by `strconv.Btoi64(_, 16)`. -/
def dehex16 (c : Nat) : Option Nat :=
  if 48 ≤ c ∧ c ≤ 57 then some (c - 48)
  else if 97 ≤ c ∧ c ≤ 102 then some (c - 97 + 10)
  else if 65 ≤ c ∧ c ≤ 70 then some (c - 65 + 10)
  else none

/-- Parsing loop of `strconv.Btoi64(_, 16)`. -/
def fromHexLoop : Bytes → Nat → Option Nat
  | [], acc => some acc
  | c :: rest, acc =>
      match dehex16 c with
      | some v => fromHexLoop rest (acc * 16 + v)
      | none => none

/-- Model of `strconv.Btoi64(s, 16)` for non-negative results: `none` models the
parse error (empty string or non-hex byte). -/
def fromHex (s : Bytes) : Option Nat :=
  if s = [] then none else fromHexLoop s 0

/-- Find the first occurrence of `sep`, returning the bytes before and after. -/
def splitOnceAux (sep : Nat) : Bytes → Option (Bytes × Bytes)
  | [] => none
  | c :: r =>
      if c = sep then some ([], r)
      else (splitOnceAux sep r).map (fun pr => (c :: pr.1, pr.2))

/-- Model of `strings.Split(s, sep, 3)`: at most three pieces, the last keeping any
further separators. -/
def split3 (sep : Nat) (s : Bytes) : List Bytes :=
  match splitOnceAux sep s with
  | none => [s]
  | some (a, r) =>
      match splitOnceAux sep r with
      | none => [a, r]
      | some (b, c) => [a, b, c]

/-- Model of `signature` from misc.go: hex-encoded MAC of
`context ‖ 0x00 ‖ expiration ‖ 0x00 ‖ value` under `secret`. -/
def signature (mac : Bytes → Bytes → Bytes)
    (secret context expiration value : Bytes) : Bytes :=
  hexEncode (mac secret (context ++ 0 :: expiration ++ 0 :: value))

/-- Model of `SignValue`: `sig ~ expiration-hex ~ value`, where the expiration is
`time.Seconds() + maxAgeSeconds` (`now` models `time.Seconds()`). -/
def SignValue (mac : Bytes → Bytes → Bytes) (now : Nat)
    (secret context : Bytes) (maxAgeSeconds : Nat) (value : Bytes) : Bytes :=
  let expiration := toHex (now + maxAgeSeconds)
  signature mac secret context expiration value ++ 126 :: expiration ++ 126 :: value

/-- The constant-time comparison accumulator of `VerifyValue`:
`eq = eq | (a[i] ^ b[i])`. -/
def ctCompare (a b : Bytes) : Nat :=
  ((a.zip b).foldl (fun e p => e ||| (p.1 ^^^ p.2)) 0)

/-- Model of `VerifyValue` at time `now` (`time.Seconds()` at verification):
split on `~` into at most three parts, parse the hex expiration, reject an
elapsed expiration, recompute the signature and compare it in constant
time; on success return the embedded value. -/
def VerifyValue (mac : Bytes → Bytes → Bytes) (now : Nat)
    (secret context : Bytes) (signedValue : Bytes) : Option Bytes :=
  match split3 126 signedValue with
  | [a0, a1, a2] =>
      match fromHex a1 with
      | none => none
      | some expiration =>
          if expiration < now then none
          else
            let expectedSig := signature mac secret context a1 a2
            if a0.length ≠ expectedSig.length then none
            else if ctCompare a0 expectedSig ≠ 0 then none
            else some a2
  | _ => none

/-! ### Header map (src/unnamed/part_003).  `web.Header` is the
`HeaderMap` of part_003 (`map[string][]string` from canonical header name
to values).  It is modelled as an association list from the canonical name
(a Lean `String`; the map holds at most one entry per name) to the list of
values.  Byte values: 34 quote, 92 backslash, 44 comma, 58 colon,
13 CR, 10 LF, 32 SP, 9 HT. -/

/-- A header map: canonical name to ordered values. -/
abbrev Header := List (String × List Bytes)

/-- Model of `isSpace` table from part_003: SP, HT, CR, LF. -/
def isSpaceByte (c : Nat) : Bool := c = 32 ∨ c = 9 ∨ c = 13 ∨ c = 10

/-- Model of `HeaderMap.Get`: first value for the key, or empty. -/
def Header.get (m : Header) (k : String) : Bytes :=
  match m.lookup k with
  | some (v :: _) => v
  | _ => []

/-- Model of `HeaderMap.Set`: replace all values of the key with the given one
(Go map assignment; the entry's position in the unordered map is modelled
by removing and re-appending). -/
def Header.set (m : Header) (k : String) (v : Bytes) : Header :=
  m.filter (fun kv => kv.1 ≠ k) ++ [(k, [v])]

/-- Go `delete`-style removal `m[k] = nil, false`. -/
def Header.del (m : Header) (k : String) : Header :=
  m.filter (fun kv => kv.1 ≠ k)

/-- The comma-splitting loop of `HeaderMap.GetList` over a single value:
commas inside double-quoted strings (with backslash escapes) do not split,
surrounding whitespace is trimmed, items are the slices `s[b:e]`.  As in
`parseCookieLoop`, the Go index loop is modelled by structurally recursing
over the remaining suffix `s.drop i`. -/
def getListLoop (s : Bytes) : Bytes → Nat → Nat → Nat → Bool → Bool →
    List Bytes → List Bytes
  | [], _, b, e, _, _, acc => if b < e then acc ++ [cookieSlice s b e] else acc
  | c :: rest, i, b, e, escape, quote, acc =>
      if escape then getListLoop s rest (i + 1) b (i + 1) false quote acc
      else if quote then
        if c = 92 then getListLoop s rest (i + 1) b (i + 1) true true acc
        else if c = 34 then getListLoop s rest (i + 1) b (i + 1) false false acc
        else getListLoop s rest (i + 1) b (i + 1) false true acc
      else if c = 34 then getListLoop s rest (i + 1) b (i + 1) false true acc
      else if isSpaceByte c then
        if b = e then getListLoop s rest (i + 1) (i + 1) (i + 1) false false acc
        else getListLoop s rest (i + 1) b e false false acc
      else if c = 44 then
        getListLoop s rest (i + 1) (i + 1) (i + 1) false false
          (acc ++ [cookieSlice s b e])
      else getListLoop s rest (i + 1) b (i + 1) false false acc

/-- Model of `HeaderMap.GetList`: flatten all values of the key into a
comma-separated list of trimmed items. -/
def Header.getList (m : Header) (k : String) : List Bytes :=
  (match m.lookup k with
   | some vs => vs
   | none => []).foldl (fun acc s => getListLoop s s 0 0 0 false false acc) []

/-- CR and LF inside header values are rewritten to space on serialization
(response-splitting defence in `WriteHttpHeader`). -/
def sanitizeValue (v : Bytes) : Bytes :=
  v.map (fun c => if c = 13 ∨ c = 10 then 32 else c)

/-- Model of `HeaderMap.WriteHttpHeader`: `name: value\r\n` for every value, then a
final `\r\n`. -/
def writeHttpHeader (m : Header) : Bytes :=
  (m.foldl (fun acc kv =>
     kv.2.foldl (fun a v => a ++ str kv.1 ++ [58, 32] ++ sanitizeValue v ++ [13, 10]) acc)
    []) ++ [13, 10]

/-! ### Request construction and `prepare` (src/web/web.go `NewRequest`,
src/unnamed/part_009 `transaction.prepare`). -/

/-- ASCII lowercase (`strings.ToLower` on the ASCII header values used here). -/
def strLower (s : Bytes) : Bytes :=
  s.map (fun c => if 65 ≤ c ∧ c ≤ 90 then c + 32 else c)

/-- Model of `strconv.Atoi`: optional sign then one or more decimal digits. -/
def parseAtoi (s : Bytes) : Option Int :=
  let digits : Bytes → Option Nat := fun ds =>
    if ds = [] then none
    else ds.foldl (fun acc c =>
      match acc with
      | none => none
      | some n => if 48 ≤ c ∧ c ≤ 57 then some (n * 10 + (c - 48)) else none)
      (some 0)
  match s with
  | 45 :: rest => (digits rest).map (fun n => -(n : Int))
  | 43 :: rest => (digits rest).map (fun n => (n : Int))
  | _ => (digits s).map (fun n => (n : Int))

/-- The `ContentLength` field computed by `NewRequest`: a present
`Content-Length` header must parse (`none` = request construction fails),
otherwise −1 for methods with a possible body and 0 (Go zero value) for
`GET`/`HEAD`. -/
def requestContentLength (header : Header) (method : String) : Option Int :=
  match header.lookup ("Content-Length") with
  | some (v :: _) => parseAtoi v
  | _ => if method ≠ ("HEAD") ∧ method ≠ ("GET") then some (-1) else some 0

/-- Which reader `prepare` binds as `req.Body`. -/
inductive BodyKind where
  | identityReader
  | chunkedBodyReader
deriving DecidableEq, Repr

/-- The fields of the transaction that `prepare` initializes (besides the
request itself). -/
structure PrepareFlags where
  closeAfterResponse : Bool
  body : BodyKind
  requestAvail : Int
  requestConsumed : Bool
deriving DecidableEq, Repr

/-- Model of `transaction.prepare`, from the point where the request exists
(part_009 lines 561–594): decide close-after-response from the protocol
version, `Connection` header and content length, then bind the body reader
from the method, `Transfer-Encoding` list and content length.  `none`
models a failing `NewRequest`.  `version` is `ProtocolVersion(major,minor)
= major*1000+minor`; `method` is the (already uppercased) request method. -/
def prepareFlags (version : Nat) (method : String) (header : Header) :
    Option PrepareFlags :=
  match requestContentLength header method with
  | none => none
  | some contentLength =>
      let connection := strLower (Header.get header ("Connection"))
      let close0 : Bool :=
        if 1001 ≤ version then connection = str ("close")
        else if version = 1000 ∧ 0 ≤ contentLength then
          ¬(connection = str ("keep-alive"))
        else true
      let te := Header.getList header ("Transfer-Encoding")
      let chunked := te.length > 0 ∧ te.head? = some (str ("chunked"))
      if method = ("GET") ∨ method = ("HEAD") then
        some ⟨close0, .identityReader, 0, true⟩
      else if chunked then
        some ⟨close0, .chunkedBodyReader, 0, false⟩
      else if 0 ≤ contentLength then
        some ⟨close0, .chunkedBodyReader, contentLength, contentLength = 0⟩
      else
        some ⟨true, .identityReader, 0, false⟩

/-! ### Transaction state and body readers (src/unnamed/part_009). -/

/-- The transaction fields relevant to body reading and responding.
`input` is the unread byte stream behind the buffered reader `t.br`
(modelled with an unbounded buffer); `out` the bytes written to `t.conn`. -/
structure Txn where
  input : Bytes
  out : Bytes
  version : Nat
  method : String
  closeAfterResponse : Bool
  hijacked : Bool
  requestAvail : Int
  requestErr : Option Err
  requestConsumed : Bool
  respondCalled : Bool
  responseErr : Option Err
  write100Continue : Bool
  chunkedResponse : Bool
deriving DecidableEq, Repr

/-- Build the transaction state `prepare` leaves behind. -/
def Txn.fromPrepare (f : PrepareFlags) (version : Nat) (method : String)
    (write100 : Bool) (input : Bytes) : Txn :=
  { input := input, out := [], version := version, method := method,
    closeAfterResponse := f.closeAfterResponse, hijacked := false,
    requestAvail := f.requestAvail, requestErr := none,
    requestConsumed := f.requestConsumed, respondCalled := false,
    responseErr := none, write100Continue := write100,
    chunkedResponse := false }

/-- Model of `bufio.Reader.Read`: returns up to `len` bytes; the EOF error exactly
when no byte is available. -/
def brRead (input : Bytes) (len : Nat) : Bytes × Bytes × Option Err :=
  if input = [] then ([], input, some Err.eof)
  else (input.take len, input.drop len, none)

/-- The `100 Continue` side of `checkRead`: on the first demanded byte
with `write100Continue` set, emit the interim response once. -/
def Txn.check100 (t : Txn) : Txn :=
  if t.write100Continue then
    { t with write100Continue := false,
             out := t.out ++ str ("HTTP/1.1 100 Continue\r\n\r\n") }
  else t

/-- Model of `identityReader.Read` (part_009 lines 613–631): after `checkRead`,
return EOF once `requestAvail` is exhausted, else read up to
`requestAvail` bytes and mark the request consumed when it reaches zero. -/
def identityRead (t0 : Txn) (len : Nat) : Bytes × Option Err × Txn :=
  match t0.requestErr with
  | some e => ([], some e, t0)
  | none =>
      let t := t0.check100
      if t.requestAvail ≤ 0 then
        ([], some Err.eof, { t with requestErr := some Err.eof })
      else
        let len2 := min len t.requestAvail.toNat
        let r := brRead t.input len2
        let avail2 := t.requestAvail - r.1.length
        (r.1, r.2.2,
          { t with input := r.2.1, requestAvail := avail2, requestErr := r.2.2,
                   requestConsumed := if avail2 = 0 then true else t.requestConsumed })

/-- Split the stream at the first LF byte: bytes before it and bytes after. -/
def splitAtLF : Bytes → Option (Bytes × Bytes)
  | [] => none
  | c :: rest =>
      if c = 10 then some ([], rest)
      else (splitAtLF rest).map (fun pr => (c :: pr.1, pr.2))

/-- Strip one trailing CR, as `bufio.ReadLine` does after removing the LF. -/
def dropTrailCR (l : Bytes) : Bytes :=
  match l.getLast? with
  | some 13 => l.dropLast
  | _ => l

/-- Model of `bufio.Reader.ReadLine` over the modelled stream: the next line without
its terminator; a final unterminated line is returned without error, and
EOF is reported only on an empty stream.  (The buffer is unbounded, so the
`isPrefix` case of the source cannot arise in the model.) -/
def readLine (input : Bytes) : Bytes × Bytes × Option Err :=
  match splitAtLF input with
  | some (before, after) => (dropTrailCR before, after, none)
  | none => if input = [] then ([], [], some Err.eof) else (dropTrailCR input, [], none)

/-- The trailer loop of `readChunkFraming` after a zero-size chunk: read
lines until an empty one; the successful end of the body is reported as the
`os.EOF` value, as in the source.  The first argument is recursion fuel;
`input.length + 1` is always enough since every line read consumes at
least one byte. -/
def chunkTrailerLoopF : Nat → Bytes → Bytes × Option Err
  | 0, _ => ([], some Err.eof)
  | f + 1, input =>
      if input = [] then (([] : Bytes), some Err.eof)
      else
        match readLine input with
        | (_, rest, some e) => (rest, some e)
        | (line, rest, none) =>
            if line = [] then (rest, some Err.eof)
            else chunkTrailerLoopF f rest

/-- The trailer loop with adequate fuel. -/
def chunkTrailerLoop (input : Bytes) : Bytes × Option Err :=
  chunkTrailerLoopF (input.length + 1) input

/-- Model of `readChunkFraming` (part_009 lines 668–706): for a non-first chunk
verify the CRLF after the previous chunk (note the source tests
`p[0] != CR && p[1] != LF`), then read the `hex-size` line; a zero size
consumes the trailer lines and yields `os.EOF`.  Returns the chunk size,
the remaining stream and the error. -/
def readChunkFraming (input : Bytes) (first : Bool) : Nat × Bytes × Option Err :=
  let step1 : Bytes × Option Err :=
    if first then (input, none)
    else
      match input with
      | p0 :: p1 :: rest =>
          if p0 ≠ 13 ∧ p1 ≠ 10 then (rest, some Err.badChunked) else (rest, none)
      | [] => ([], some Err.eof)
      | [_] => ([], some Err.unexpectedEof)
  match step1 with
  | (_, some e) => (0, step1.1, some e)
  | (input1, none) =>
      match readLine input1 with
      | (_, rest, some e) => (0, rest, some e)
      | (line, rest, none) =>
          match fromHex line with
          | none => (0, rest, some Err.parseNum)
          | some n =>
              if n = 0 then
                let r := chunkTrailerLoop rest
                (0, r.1, r.2)
              else (n, rest, none)

/-- Model of `chunkedReader.Read` (part_009 lines 635–666): after `checkRead`, read
the next chunk header when no chunk bytes remain, hand out up to
`requestAvail` bytes, and eagerly read the next chunk header when the
current chunk is exhausted (recording `os.EOF` as request-consumed). -/
def chunkedRead (t0 : Txn) (len : Nat) : Bytes × Option Err × Txn :=
  match t0.requestErr with
  | some e => ([], some e, t0)
  | none =>
      let t := t0.check100
      let stepped :=
        if t.requestAvail = 0 then
          let r := readChunkFraming t.input true
          ((r.1 : Int), { t with input := r.2.1, requestAvail := (r.1 : Int) }, r.2.2)
        else (t.requestAvail, t, none)
      match stepped with
      | (_, t1, some e) => ([], some e, { t1 with requestErr := some e })
      | (avail, t1, none) =>
          let len2 := min len avail.toNat
          let r := brRead t1.input len2
          let avail2 := avail - r.1.length
          let t2 := { t1 with input := r.2.1, requestAvail := avail2,
                              requestErr := r.2.2 }
          if r.2.2 = none ∧ avail2 = 0 then
            let f := readChunkFraming t2.input false
            (r.1, none,
              { t2 with input := f.2.1, requestAvail := (f.1 : Int),
                        requestErr := f.2.2,
                        requestConsumed :=
                          if f.2.2 = some Err.eof then true else t2.requestConsumed })
          else (r.1, r.2.2, t2)

/-- Dispatch on the reader `prepare` bound as `req.Body`. -/
def readBody : BodyKind → Txn → Nat → Bytes × Option Err × Txn
  | .identityReader => identityRead
  | .chunkedBodyReader => chunkedRead

/-! ### Respond (src/unnamed/part_009 `transaction.Respond`,
src/web/misc.go `StatusText`, src/unnamed/part_007 `nullResponseBody`). -/

/-- Decimal digits of a non-negative number (`strconv.Itoa`); the first
argument is recursion fuel, adequate whenever at least `x`. -/
def toDecAux : Nat → Nat → Bytes → Bytes
  | 0, _, acc => acc
  | f + 1, x, acc =>
      if x = 0 then acc
      else toDecAux f (x / 10) ((48 + x % 10) :: acc)

/-- Model of `strconv.Itoa` for the non-negative status codes used here. -/
def toDec (x : Nat) : Bytes := if x = 0 then [48] else toDecAux x x []

/-- Model of `StatusText` (misc.go): the RFC reason phrase, or `Status <n>`. -/
def StatusText (status : Nat) : Bytes :=
  if status = 100 then str ("Continue")
  else if status = 101 then str ("Switching Protocols")
  else if status = 200 then str ("OK")
  else if status = 201 then str ("Created")
  else if status = 202 then str ("Accepted")
  else if status = 203 then str ("Non-Authoritative Information")
  else if status = 204 then str ("No Content")
  else if status = 205 then str ("Reset Content")
  else if status = 206 then str ("Partial Content")
  else if status = 300 then str ("Multiple Choices")
  else if status = 301 then str ("Moved Permanently")
  else if status = 302 then str ("Found")
  else if status = 303 then str ("See Other")
  else if status = 304 then str ("Not Modified")
  else if status = 305 then str ("Use Proxy")
  else if status = 307 then str ("Temporary Redirect")
  else if status = 400 then str ("Bad Request")
  else if status = 401 then str ("Unauthorized")
  else if status = 402 then str ("Payment Required")
  else if status = 403 then str ("Forbidden")
  else if status = 404 then str ("Not Found")
  else if status = 405 then str ("Method Not Allowed")
  else if status = 406 then str ("Not Acceptable")
  else if status = 407 then str ("Proxy Authentication Required")
  else if status = 408 then str ("Request Timeout")
  else if status = 409 then str ("Conflict")
  else if status = 410 then str ("Gone")
  else if status = 411 then str ("Length Required")
  else if status = 412 then str ("Precondition Failed")
  else if status = 413 then str ("Request Entity Too Large")
  else if status = 414 then str ("Request URI Too Long")
  else if status = 415 then str ("Unsupported Media Type")
  else if status = 416 then str ("Requested Range Not Satisfiable")
  else if status = 417 then str ("Expectation Failed")
  else if status = 500 then str ("Internal Server Error")
  else if status = 501 then str ("Not Implemented")
  else if status = 502 then str ("Bad Gateway")
  else if status = 503 then str ("Service Unavailable")
  else if status = 504 then str ("Gateway Timeout")
  else if status = 505 then str ("HTTP Version Not Supported")
  else str ("Status ") ++ toDec status

/-- What `Respond` decides once it is past its guard clauses. -/
structure RespondOutcome where
  header : Header
  chunked : Bool
  close : Bool
  contentLength : Int
deriving DecidableEq, Repr

/-- The header/flag logic of `transaction.Respond` (part_009 lines
718–757): strip a supplied `Transfer-Encoding` (only when its first value
is non-empty, as the source checks `header.Get(...) != ""`), force close
when the request body was not consumed, pick identity for 304 or a
supplied `Content-Length`, force close for pre-1.1 versions otherwise,
add `Connection: close` when closing, never chunk a `HEAD` response, and
finally set `Transfer-Encoding: chunked` when chunking. -/
def respondCore (requestConsumed closeAfterResponse : Bool) (version : Nat)
    (method : String) (status : Nat) (header0 : Header) : RespondOutcome :=
  let header1 :=
    if Header.get header0 ("Transfer-Encoding") ≠ [] then
      Header.del header0 ("Transfer-Encoding")
    else header0
  let close1 := if ¬requestConsumed then true else closeAfterResponse
  let step :=
    if status = 304 then
      (Header.del (Header.del header1 ("Content-Type")) ("Content-Length"),
       false, close1, (-1 : Int))
    else if Header.get header1 ("Content-Length") ≠ [] then
      (header1, false, close1,
       (parseAtoi (Header.get header1 ("Content-Length"))).getD 0)
    else if version < 1001 then (header1, true, true, (-1 : Int))
    else (header1, true, close1, (-1 : Int))
  let header2 := step.1
  let close2 := step.2.2.1
  let chunked2 := if close2 then false else step.2.1
  let header3 :=
    if close2 then Header.set header2 ("Connection") (str ("close")) else header2
  let chunked3 := if method = ("HEAD") then false else chunked2
  let header4 :=
    if chunked3 then Header.set header3 ("Transfer-Encoding") (str ("chunked"))
    else header3
  ⟨header4, chunked3, close2, step.2.2.2⟩

/-- The status line plus serialized header block `Respond` builds in its
`bytes.Buffer`. -/
def respondPrelude (version : Nat) (status : Nat) (header : Header) : Bytes :=
  (if 1001 ≤ version then str ("HTTP/1.1") else str ("HTTP/1.0")) ++
    [32] ++ toDec status ++ [32] ++ StatusText status ++ [13, 10] ++
    writeHttpHeader header

/-- What `Respond` hands back to the handler: the real response body, or
the dummy `nullResponseBody{err: ErrInvalidState}` returned on misuse. -/
inductive RespondRet where
  | dummy (err : Err)
  | real (prelude_ : Bytes) (chunked : Bool)
deriving DecidableEq, Repr

/-- Model of `transaction.Respond` (part_009 lines 709–786): on a hijacked
transaction or a repeated call, return the dummy sink and leave the state
untouched; otherwise record the commitment and the chosen encoder.
(The prelude bytes are buffered by the chosen encoder; `out` is unchanged
until the encoder flushes.) -/
def Txn.respond (t : Txn) (status : Nat) (header : Header) : RespondRet × Txn :=
  if t.hijacked then (.dummy Err.invalidState, t)
  else if t.respondCalled then (.dummy Err.invalidState, t)
  else
    let o := respondCore t.requestConsumed t.closeAfterResponse t.version
      t.method status header
    (.real (respondPrelude t.version status o.header) o.chunked,
     { t with respondCalled := true, requestErr := some Err.invalidState,
              closeAfterResponse := o.close, chunkedResponse := o.chunked })

/-- Model of `nullResponseBody.Write` for a body carrying error `err` (part_007
lines 53–58): fail with the stored error, otherwise claim `p` written while
discarding it.  Returns (count, error); nothing reaches the connection. -/
def nullBodyWrite (err : Option Err) (p : Bytes) : Nat × Option Err :=
  match err with
  | some e => (0, some e)
  | none => (p.length, none)

/-- Model of `nullResponseBody.Flush` (part_007 lines 60–62). -/
def nullBodyFlush (err : Option Err) : Option Err := err

/-! ### Chunked response encoder (src/unnamed/part_007
`chunkedResponseBody`).  The buffer `w.buf` is a fixed-length `List Nat`;
`List.set` is a no-op out of bounds, matching Go `copy`'s truncation.  The
underlying writer `w.wr` (the connection) is modelled as the always
successful sink `out`. -/

/-- Model of `copy(l[off:], src)`: write `src` into `l` starting at `off`,
truncating at the end of `l`. -/
def listCopy (l : List Nat) (off : Nat) : Bytes → List Nat
  | [] => l
  | x :: xs => listCopy (l.set off x) (off + 1) xs

/-- The `ndigit` loop of `newChunkedResponseBody`:
`for n := int32(bufferSize); n != 0; n >>= 4 { ndigit += 1 }`.  The first
argument is recursion fuel, adequate whenever at least `n`. -/
def ndigitLoop : Nat → Nat → Nat → Nat
  | 0, _, acc => acc
  | f + 1, n, acc => if n = 0 then acc else ndigitLoop f (n / 16) (acc + 1)

/-- Number of hex digits the encoder reserves for the chunk-size field. -/
def ndigitOf (bufferSize : Nat) : Nat := ndigitLoop bufferSize bufferSize 0

/-- Chunked encoder state: `buf` of length `bufferSize`, `s` the start of
the current chunk, `n` the write position, `out` the bytes written to the
connection. -/
structure ChunkedRB where
  err : Option Err
  buf : List Nat
  s : Nat
  n : Nat
  ndigit : Nat
  out : Bytes
deriving DecidableEq, Repr

/-- Model of `newChunkedResponseBody`: size the digit field from `bufferSize`,
buffer a short header (or write a long one through), and reserve
`ndigit + 2` bytes for the first chunk's size line. -/
def newChunkedResponseBody (header : Bytes) (bufferSize : Nat) : ChunkedRB :=
  let nd := ndigitOf bufferSize
  let base : ChunkedRB :=
    { err := none, buf := List.replicate bufferSize 0, s := 0, n := 0,
      ndigit := nd, out := [] }
  let w :=
    if header.length < bufferSize then
      { base with buf := listCopy base.buf 0 header,
                  n := min bufferSize header.length }
    else { base with out := header }
  { w with s := w.n, n := w.n + nd + 2 }

/-- Model of `writeBuf`: send `buf[:n]` to the connection. -/
def writeBuf (w : ChunkedRB) : ChunkedRB :=
  { w with out := w.out ++ w.buf.take w.n }

/-- The zero-padded patching loop of `finalizeChunk`: write the low `k` hex
digits of `v` at positions `s..s+k-1`, least significant digit last. -/
def patchHex (buf : List Nat) (s k v : Nat) : List Nat :=
  match k with
  | 0 => buf
  | k + 1 => patchHex (buf.set (s + k) (hexDigitChar (v % 16))) s k (v / 16)

/-- Model of `finalizeChunk`: an empty chunk is rolled back; otherwise the CRLF
after the data, the CRLF after the size field and the zero-padded hex size
are patched into place. -/
def finalizeChunk (w : ChunkedRB) : ChunkedRB :=
  if w.s + w.ndigit + 2 = w.n then { w with n := w.s }
  else
    let len := w.n - w.s - w.ndigit - 2
    let buf1 := (w.buf.set w.n 13).set (w.n + 1) 10
    let buf2 := (buf1.set (w.s + w.ndigit) 13).set (w.s + w.ndigit + 1) 10
    { w with buf := patchHex buf2 w.s w.ndigit len, n := w.n + 2 }

/-- Model of `chunkedResponseBody.Flush`: finalize and emit the buffer, then reserve
space for the next chunk's size line. -/
def ChunkedRB.flush (w : ChunkedRB) : ChunkedRB :=
  if w.err.isSome then w
  else
    let w1 := finalizeChunk w
    let w2 := if 0 < w1.n then writeBuf w1 else w1
    { w2 with s := 0, n := w2.ndigit + 2 }

/-- The copy loop of `chunkedResponseBody.Write`: fill the buffer up to the
two reserved trailer bytes, flushing when full.  `fuel` bounds the number
of iterations; the source loops forever when the buffer is too small to
make progress, modelled by the `hang` error. -/
def writeLoop (w : ChunkedRB) (p : Bytes) (fuel : Nat) : ChunkedRB :=
  match fuel with
  | 0 => { w with err := some Err.hang }
  | fuel + 1 =>
      if p = [] then w
      else
        let avail := w.buf.length - w.n - 2
        if avail = 0 then writeLoop w.flush p fuel
        else
          let m := min avail p.length
          writeLoop { w with buf := listCopy w.buf w.n p, n := w.n + m }
            (p.drop m) fuel

/-- Model of `chunkedResponseBody.Write` (the fuel is sufficient whenever the buffer
admits progress; see `writeLoop` and the invariant proofs below). -/
def ChunkedRB.write (w : ChunkedRB) (p : Bytes) : ChunkedRB :=
  if w.err.isSome then w else writeLoop w p (2 * p.length + 1)

/-- Model of `chunkedResponseBody.finish`: finalize the last chunk, make room for
the terminator `0\r\n\r\n` (an extra buffer write if needed), emit it, and
poison the encoder. -/
def ChunkedRB.finish (w : ChunkedRB) : ChunkedRB × Option Err :=
  if w.err.isSome then (w, w.err)
  else
    let w1 := finalizeChunk w
    let w2 :=
      if w1.buf.length < w1.n + 5 then { writeBuf w1 with n := 0 } else w1
    let w3 := { w2 with buf := listCopy w2.buf w2.n (str ("0\r\n\r\n")),
                        n := w2.n + 5 }
    let w4 := writeBuf w3
    ({ w4 with err := some Err.invalidState }, none)

/-- A handler's interaction with the encoder: a sequence of writes and
flushes. -/
inductive COp where
  | write (p : Bytes)
  | flush
deriving DecidableEq, Repr

/-- Run a sequence of handler operations on the encoder. -/
def runOps (w : ChunkedRB) : List COp → ChunkedRB
  | [] => w
  | .write p :: ops => runOps (w.write p) ops
  | .flush :: ops => runOps w.flush ops

/-- The full on-the-wire body a handler run produces: create the encoder
with an empty prelude, run the operations, finish. -/
def chunkedRun (bufferSize : Nat) (ops : List COp) : Bytes :=
  ((runOps (newChunkedResponseBody [] bufferSize) ops).finish).1.out

/-- Model of `ndigit` hex digits of `v`, zero padded, most significant first: the
shape of every emitted chunk-size field. -/
def hexPad (k v : Nat) : Bytes :=
  match k with
  | 0 => []
  | k + 1 => hexPad k (v / 16) ++ [hexDigitChar (v % 16)]

/-- Serialization of a list of chunk payloads in HTTP chunked framing with
an `ndigit`-wide size field: `size CRLF data CRLF` for each chunk. -/
def serializeChunks (ndigit : Nat) (cs : List Bytes) : Bytes :=
  cs.foldr (fun d acc => hexPad ndigit d.length ++ [13, 10] ++ d ++ [13, 10] ++ acc) []

/-! ## Claim C9: quote/unquote round-trip -/

theorem unquoteInner_eq_unescapeFrom (l : Bytes) :
    unquoteInner l = unescapeFrom l false := by
  induction l with
  | nil => rfl
  | cons b rest ih =>
      by_cases hb : b = 92 <;> simp [unquoteInner, unescapeFrom, hb, ih]

theorem unescapeFrom_quoteEscape (s : Bytes) :
    unescapeFrom (quoteEscape s) false = s := by
  induction s with
  | nil => rfl
  | cons c rest ih =>
      by_cases hc : c = 92 ∨ c = 34
      · simp [quoteEscape, hc, unescapeFrom, ih]
      · have h92 : c ≠ 92 := fun h => hc (Or.inl h)
        have h34 : c ≠ 34 := fun h => hc (Or.inr h)
        simp [quoteEscape, hc, unescapeFrom, h92, h34, ih]

/-- C9: for every byte string `s`,
`UnquoteHeaderValue (QuoteHeaderValue s) = s`: quoting surrounds `s` with
double quotes escaping backslash and double quote, and unquoting exactly
inverts this, for every byte string including ones containing quotes,
backslashes, or the empty string. -/
theorem quote_unquote_roundtrip (s : Bytes) :
    UnquoteHeaderValue (QuoteHeaderValue s) = s := by
  have hassoc : QuoteHeaderValue s = (34 :: quoteEscape s) ++ [34] := by
    simp [QuoteHeaderValue]
  have hlast : (QuoteHeaderValue s).getLast? = some 34 := by
    rw [hassoc, List.getLast?_concat]
  have hlen : ¬(QuoteHeaderValue s).length < 2 := by
    rw [hassoc]
    simp
  have hhead : (QuoteHeaderValue s).head? = some 34 := by
    rw [QuoteHeaderValue]
    rfl
  have hguard : ¬((QuoteHeaderValue s).length < 2 ∨
      (QuoteHeaderValue s).head? ≠ some 34 ∨
      (QuoteHeaderValue s).getLast? ≠ some 34) := by
    push_neg
    exact ⟨Nat.le_of_not_lt hlen, hhead, hlast⟩
  rw [UnquoteHeaderValue, if_neg hguard]
  have hstrip : ((QuoteHeaderValue s).drop 1).dropLast = quoteEscape s := by
    show ((34 :: (quoteEscape s ++ [34])).drop 1).dropLast = quoteEscape s
    simp
  rw [hstrip, unquoteInner_eq_unescapeFrom, unescapeFrom_quoteEscape]

/-! ## Claim C4: trailing form item without `=` -/

/-- C4 counterexample: parsing `a=b&c` yields only the pair `a ↦ b`; no
pair with key `c` (in particular not `c ↦ ""`) is added to the map. -/
theorem parseForm_trailing_counterexample :
    ParseFormEncodedBytes (str ("a=b&c")) = some [(str ("a"), str ("b"))] ∧
    (str ("c"), ([] : Bytes)) ∉ [(str ("a"), str ("b"))] := by
  decide

theorem parseFormLoop_nil (key buf : Bytes) (acc : List (Bytes × Bytes)) :
    parseFormLoop [] key buf acc =
      if key ≠ [] then some (acc ++ [(key, buf)]) else some acc := rfl

theorem parseFormLoop_cons (c : Nat) (rest key buf : Bytes)
    (acc : List (Bytes × Bytes)) :
    parseFormLoop (c :: rest) key buf acc =
      (if c = 61 then parseFormLoop rest buf [] acc
       else if c = 38 then parseFormLoop rest [] [] (acc ++ [(key, buf)])
       else if c = 37 then
         match rest with
         | a :: b :: rest2 =>
             match dehex a, dehex b with
             | some x, some y => parseFormLoop rest2 key (buf ++ [x * 16 + y]) acc
             | _, _ => none
         | _ => none
       else if c = 43 then parseFormLoop rest key (buf ++ [32]) acc
       else parseFormLoop rest key (buf ++ [c]) acc) := by
  rw [parseFormLoop.eq_def]
  rfl

theorem parseFormLoop_special_free (t : Bytes)
    (h61 : 61 ∉ t) (h38 : 38 ∉ t) (h37 : 37 ∉ t) :
    ∀ buf acc, parseFormLoop t [] buf acc = some acc := by
  induction t with
  | nil => intro buf acc; simp [parseFormLoop_nil]
  | cons c rest ih =>
      intro buf acc
      simp only [List.mem_cons, not_or] at h61 h38 h37
      have hrec := ih h61.2 h38.2 h37.2
      have e61 : c ≠ 61 := fun h => h61.1 h.symm
      have e38 : c ≠ 38 := fun h => h38.1 h.symm
      have e37 : c ≠ 37 := fun h => h37.1 h.symm
      by_cases hc : c = 43 <;>
        simp [parseFormLoop_cons, e61, e38, e37, hc, hrec]

theorem parseFormLoop_trailing_aux (t : Bytes)
    (h61 : 61 ∉ t) (h38 : 38 ∉ t) (h37 : 37 ∉ t) :
    ∀ N a key buf acc, a.length ≤ N →
    parseFormLoop (a ++ 38 :: t) key buf acc =
      parseFormLoop (a ++ [38]) key buf acc := by
  have hstep : ∀ key buf acc, parseFormLoop (38 :: t) key buf acc =
      parseFormLoop [38] key buf acc := by
    intro key buf acc
    simp [parseFormLoop_cons, parseFormLoop_nil,
      parseFormLoop_special_free t h61 h38 h37]
  intro N
  induction N with
  | zero =>
      intro a key buf acc ha
      have : a = [] := List.length_eq_zero.mp (Nat.le_zero.mp ha)
      subst this
      simpa using hstep key buf acc
  | succ N ih =>
      intro a key buf acc ha
      match a with
      | [] => simpa using hstep key buf acc
      | c :: a2 =>
          simp only [List.length_cons, Nat.add_le_add_iff_right] at ha
          rw [List.cons_append, List.cons_append, parseFormLoop_cons,
            parseFormLoop_cons]
          by_cases hc61 : c = 61
          · simp only [if_pos hc61]
            exact ih a2 buf [] acc ha
          · by_cases hc38 : c = 38
            · simp only [if_neg hc61, if_pos hc38]
              exact ih a2 [] [] (acc ++ [(key, buf)]) ha
            · by_cases hc37 : c = 37
              · -- percent decoding reads two bytes ahead
                simp only [if_neg hc61, if_neg hc38, if_pos hc37]
                match a2 with
                | [] =>
                    cases t with
                    | nil => simp [dehex]
                    | cons u t2 => simp [dehex]
                | [y] =>
                    cases hdy : dehex y <;> simp [hdy, dehex]
                | y :: z :: a3 =>
                    have ha3 : a3.length ≤ N := by
                      simp only [List.length_cons] at ha; omega
                    simp only [List.cons_append]
                    cases hdy : dehex y with
                    | none => simp [hdy]
                    | some x =>
                        cases hdz : dehex z with
                        | none => simp [hdy, hdz]
                        | some yv =>
                            simp only [hdy, hdz]
                            exact ih a3 key (buf ++ [x * 16 + yv]) acc ha3
              · by_cases hc43 : c = 43
                · simp only [if_neg hc61, if_neg hc38, if_neg hc37, if_pos hc43]
                  exact ih a2 key (buf ++ [32]) acc ha
                · simp only [if_neg hc61, if_neg hc38, if_neg hc37, if_neg hc43]
                  exact ih a2 key (buf ++ [c]) acc ha

/-- C4 amended: a trailing form item that contains no `=` is ignored:
parsing `a & item` equals parsing `a &` (the item adds nothing to the map),
and an input consisting only of such an item parses to the empty map. -/
theorem parseForm_trailing_no_eq_ignored (a t : Bytes)
    (h61 : 61 ∉ t) (h38 : 38 ∉ t) (h37 : 37 ∉ t) :
    ParseFormEncodedBytes (a ++ 38 :: t) = ParseFormEncodedBytes (a ++ [38]) ∧
    ParseFormEncodedBytes t = some [] := by
  constructor
  · exact parseFormLoop_trailing_aux t h61 h38 h37 a.length a [] [] []
      (Nat.le_refl _)
  · exact parseFormLoop_special_free t h61 h38 h37 [] []

/-- Witness for the amended C4 theorem at `a=b` and trailing item `c`. -/
theorem parseForm_trailing_no_eq_ignored_witness :
    ParseFormEncodedBytes (str ("a=b") ++ 38 :: str ("c")) =
      ParseFormEncodedBytes (str ("a=b") ++ [38]) ∧
    ParseFormEncodedBytes (str ("c")) = some [] :=
  parseForm_trailing_no_eq_ignored (str ("a=b")) (str ("c"))
    (by decide) (by decide) (by decide)

/-! ## Claim C10: cookie parsing is total and never fails -/

theorem parseCookieLoop_nil (s key : Bytes) (i b e : Nat)
    (acc : List (Bytes × Bytes)) :
    parseCookieLoop s [] i key b e acc =
      (if key ≠ [] ∧ b < e then acc ++ [(key, cookieSlice s b e)] else acc) := rfl

theorem parseCookieLoop_cons (s : Bytes) (c : Nat) (rest : Bytes)
    (i : Nat) (key : Bytes) (b e : Nat) (acc : List (Bytes × Bytes)) :
    parseCookieLoop s (c :: rest) i key b e acc =
      (if c = 32 ∨ c = 9 then
        if b = e then parseCookieLoop s rest (i + 1) key (i + 1) (i + 1) acc
        else parseCookieLoop s rest (i + 1) key b e acc
      else if c = 61 then
        if key = [] then
          parseCookieLoop s rest (i + 1) (cookieSlice s b e) (i + 1) (i + 1) acc
        else parseCookieLoop s rest (i + 1) key b (e + 1) acc
      else if c = 59 then
        parseCookieLoop s rest (i + 1) [] (i + 1) (i + 1)
          (if key ≠ [] ∧ b < e then acc ++ [(key, cookieSlice s b e)] else acc)
      else parseCookieLoop s rest (i + 1) key b (i + 1) acc) := by
  rw [parseCookieLoop.eq_def]

theorem parseCookieLoop_acc (s : Bytes) :
    ∀ (rem : Bytes) (i : Nat) (key : Bytes) (b e : Nat)
      (acc : List (Bytes × Bytes)),
    parseCookieLoop s rem i key b e acc = acc ++ parseCookieLoop s rem i key b e [] := by
  intro rem
  induction rem with
  | nil =>
      intro i key b e acc
      by_cases h : key ≠ [] ∧ b < e <;> simp [parseCookieLoop_nil, h]
  | cons c rest ih =>
      intro i key b e acc
      rw [parseCookieLoop_cons, parseCookieLoop_cons]
      by_cases hws : c = 32 ∨ c = 9
      · simp only [if_pos hws]
        by_cases hbe : b = e
        · simp only [if_pos hbe]; exact ih (i + 1) key (i + 1) (i + 1) acc
        · simp only [if_neg hbe]; exact ih (i + 1) key b e acc
      · simp only [if_neg hws]
        by_cases h61 : c = 61
        · simp only [if_pos h61]
          by_cases hkey : key = []
          · simp only [if_pos hkey]
            exact ih (i + 1) (cookieSlice s b e) (i + 1) (i + 1) acc
          · simp only [if_neg hkey]; exact ih (i + 1) key b (e + 1) acc
        · simp only [if_neg h61]
          by_cases h59 : c = 59
          · simp only [if_pos h59]
            by_cases hadd : key ≠ [] ∧ b < e
            · simp only [if_pos hadd]
              rw [ih (i + 1) [] (i + 1) (i + 1) (acc ++ [(key, cookieSlice s b e)]),
                  ih (i + 1) [] (i + 1) (i + 1) ([] ++ [(key, cookieSlice s b e)])]
              simp
            · simp only [if_neg hadd]
              exact ih (i + 1) [] (i + 1) (i + 1) acc
          · simp only [if_neg h59]
            exact ih (i + 1) key b (i + 1) acc

/-- C10: `parseCookieValues` is total and never fails: for every list of
`Cookie` header values, however malformed, it returns a nil error and only
appends recognized pairs to the supplied map. -/
theorem parseCookieValues_total (values : List Bytes)
    (m : List (Bytes × Bytes)) :
    ∃ adds, parseCookieValues values m = (m ++ adds, none) := by
  suffices h : ∀ (vs : List Bytes) (m0 : List (Bytes × Bytes)), ∃ adds,
      List.foldl (fun acc s => parseCookieLoop s s 0 [] 0 0 acc) m0 vs = m0 ++ adds by
    obtain ⟨adds, ha⟩ := h values m
    exact ⟨adds, by simp [parseCookieValues, ha]⟩
  intro vs
  induction vs with
  | nil => intro m0; exact ⟨[], by simp⟩
  | cons v rest ih =>
      intro m0
      obtain ⟨adds, ha⟩ := ih (parseCookieLoop v v 0 [] 0 0 m0)
      refine ⟨parseCookieLoop v v 0 [] 0 0 [] ++ adds, ?_⟩
      rw [List.foldl_cons, ha, parseCookieLoop_acc v v 0 [] 0 0 m0,
        List.append_assoc]

/-! ## Claim C5: WebSocket key extraction -/

theorem webSocketKeyLoop_spec : ∀ (s : Bytes) (n d : Nat),
    webSocketKeyLoop s n d =
      ((s.filter (fun b => 48 ≤ b ∧ b ≤ 57)).foldl
         (fun n b => (n * 10 + (b - 48)) % 4294967296) n,
       d + s.count 32) := by
  intro s
  induction s with
  | nil => intro n d; simp [webSocketKeyLoop]
  | cons b rest ih =>
      intro n d
      by_cases hsp : b = 32
      · have : ¬(48 ≤ b ∧ b ≤ 57) := by omega
        simp only [webSocketKeyLoop, if_pos hsp, ih, hsp, List.count_cons]
        simp [this]
        omega
      · by_cases hdig : 48 ≤ b ∧ b ≤ 57
        · have : b ≠ 32 := hsp
          simp only [webSocketKeyLoop, if_neg hsp, if_pos hdig, ih,
            List.count_cons]
          simp [hdig, this]
        · simp only [webSocketKeyLoop, if_neg hsp, if_neg hdig, ih,
            List.count_cons]
          simp [hdig, hsp]

/-- C5 counterexample: for the key header value `"12 "` the code produces
the big-endian bytes of 12 (the decimal digits read in order), not of the
digit sum 3 the claim describes; the two encodings differ. -/
theorem webSocketKey_counterexample :
    webSocketKey (str ("12 ")) = some (be32 12) ∧
    webSocketKeyDigitSum (str ("12 ")) = 3 ∧
    webSocketKeySpaces (str ("12 ")) = 1 ∧
    be32 (3 / 1) ≠ be32 12 := by
  decide

/-- C5 amended: for a non-empty key header value, with `N` the 32-bit
number formed by reading the decimal digits in order (base 10, mod 2^32)
and `D` the space count, the upgrade fails iff `D = 0` or `N mod D ≠ 0`,
and otherwise yields the 4 big-endian bytes of `N / D`. -/
theorem webSocketKey_spec (s : Bytes) (hne : s ≠ []) :
    (webSocketKeySpaces s ≠ 0 ∧
       webSocketKeyNumber s % webSocketKeySpaces s = 0 →
       webSocketKey s = some (be32 (webSocketKeyNumber s / webSocketKeySpaces s))) ∧
    (webSocketKeySpaces s = 0 ∨
       webSocketKeyNumber s % webSocketKeySpaces s ≠ 0 →
       webSocketKey s = none) := by
  have hloop := webSocketKeyLoop_spec s 0 0
  have hn : (webSocketKeyLoop s 0 0).1 = webSocketKeyNumber s := by
    rw [hloop]; rfl
  have hd : (webSocketKeyLoop s 0 0).2 = webSocketKeySpaces s := by
    rw [hloop]; simp [webSocketKeySpaces]
  constructor
  · rintro ⟨hd0, hmod⟩
    rw [webSocketKey, if_neg hne, if_neg]
    · rw [hn, hd]
    · rw [hn, hd]
      push_neg
      exact ⟨hd0, hmod⟩
  · intro h
    rw [webSocketKey, if_neg hne, if_pos]
    rw [hn, hd]
    exact h

/-- Witness for the amended C5 theorem at the value `"12 "`. -/
theorem webSocketKey_spec_witness :
    webSocketKey (str ("12 ")) =
      some (be32 (webSocketKeyNumber (str ("12 ")) / webSocketKeySpaces (str ("12 ")))) :=
  (webSocketKey_spec (str ("12 ")) (by decide)).1 (by decide)

/-! ## Claim C8: sign/verify round-trip -/

theorem toHexAux_zero (f : Nat) (acc : Bytes) : toHexAux f 0 acc = acc := by
  cases f <;> rfl

theorem div16_le (x f : Nat) (hx : x ≠ 0) (hf : x ≤ f + 1) : x / 16 ≤ f := by
  have hlt : x / 16 < x := Nat.div_lt_self (Nat.pos_of_ne_zero hx) (by norm_num)
  omega

theorem toHexAux_fuel : ∀ (f f2 x : Nat) (acc : Bytes), x ≤ f → x ≤ f2 →
    toHexAux f x acc = toHexAux f2 x acc := by
  intro f
  induction f with
  | zero =>
      intro f2 x acc hf _
      have : x = 0 := Nat.le_zero.mp hf
      subst this
      rw [toHexAux_zero, toHexAux_zero]
  | succ f ih =>
      intro f2 x acc hf hf2
      by_cases hx : x = 0
      · subst hx; rw [toHexAux_zero, toHexAux_zero]
      · match f2, hf2 with
        | 0, h0 => exact absurd (Nat.le_zero.mp h0) hx
        | f2 + 1, hh =>
            show toHexAux (f + 1) x acc = toHexAux (f2 + 1) x acc
            simp only [toHexAux, if_neg hx]
            exact ih f2 (x / 16) _ (div16_le x f hx hf) (div16_le x f2 hx hh)

theorem toHexAux_length : ∀ (f x : Nat) (acc : Bytes), x ≤ f →
    (toHexAux f x acc).length = (toHexAux f x []).length + acc.length := by
  intro f
  induction f with
  | zero =>
      intro x acc hf
      have : x = 0 := Nat.le_zero.mp hf
      subst this
      rw [toHexAux_zero, toHexAux_zero]
      simp
  | succ f ih =>
      intro x acc hf
      by_cases hx : x = 0
      · subst hx; rw [toHexAux_zero, toHexAux_zero]; simp
      · simp only [toHexAux, if_neg hx]
        have hdiv : x / 16 ≤ f := div16_le x f hx hf
        rw [ih (x / 16) _ hdiv, ih (x / 16) [hexDigitChar (x % 16)] hdiv]
        simp
        omega

theorem dehex16_hexDigitChar (u : Nat) (h : u < 16) :
    dehex16 (hexDigitChar u) = some u := by
  unfold hexDigitChar dehex16
  by_cases hu : u < 10
  · rw [if_pos hu, if_pos (by omega)]
    congr 1
    omega
  · rw [if_neg hu, if_neg (by omega), if_pos (by omega)]
    congr 1
    omega

theorem fromHexLoop_toHexAux : ∀ (f x : Nat) (acc : Bytes) (v : Nat), x ≤ f →
    fromHexLoop (toHexAux f x acc) v =
      fromHexLoop acc (v * 16 ^ (toHexAux f x []).length + x) := by
  intro f
  induction f with
  | zero =>
      intro x acc v hf
      have : x = 0 := Nat.le_zero.mp hf
      subst this
      simp [toHexAux_zero]
  | succ f ih =>
      intro x acc v hf
      by_cases hx : x = 0
      · subst hx; rw [toHexAux_zero, toHexAux_zero]; simp
      · simp only [toHexAux, if_neg hx]
        have hdiv : x / 16 ≤ f := div16_le x f hx hf
        rw [ih (x / 16) _ v hdiv]
        have hstep : fromHexLoop (hexDigitChar (x % 16) :: acc)
            (v * 16 ^ (toHexAux f (x / 16) []).length + x / 16) =
            fromHexLoop acc ((v * 16 ^ (toHexAux f (x / 16) []).length + x / 16) * 16
              + x % 16) := by
          simp [fromHexLoop, dehex16_hexDigitChar (x % 16) (Nat.mod_lt x (by norm_num))]
        rw [hstep]
        have hlen : (toHexAux f (x / 16) [hexDigitChar (x % 16)]).length =
            (toHexAux f (x / 16) []).length + 1 :=
          toHexAux_length f (x / 16) _ hdiv
        rw [hlen]
        congr 1
        have hdm : x / 16 * 16 + x % 16 = x := by omega
        ring_nf
        omega

theorem toHexAux_ne_nil (f x : Nat) (acc : Bytes) (hx : x ≠ 0) (hf : x ≤ f) :
    toHexAux f x acc ≠ [] := by
  match f, hf with
  | 0, h0 => exact absurd (Nat.le_zero.mp h0) hx
  | f + 1, hh =>
      simp only [toHexAux, if_neg hx]
      have hdiv : x / 16 ≤ f := div16_le x f hx hh
      intro hcon
      have hl := toHexAux_length f (x / 16) (hexDigitChar (x % 16) :: acc) hdiv
      rw [hcon] at hl
      simp at hl
      omega

/-- Model of `strconv.Btoi64` inverts `strconv.Itob64` on the non-negative values
the signing code produces. -/
theorem fromHex_toHex (x : Nat) : fromHex (toHex x) = some x := by
  by_cases hx : x = 0
  · subst hx; decide
  · rw [toHex, if_neg hx, fromHex,
      if_neg (toHexAux_ne_nil x x [] hx (Nat.le_refl x)),
      fromHexLoop_toHexAux x x [] 0 (Nat.le_refl x)]
    simp [fromHexLoop]

theorem isHexDigitChar_hexDigitChar (u : Nat) (h : u < 16) :
    isHexDigitChar (hexDigitChar u) := by
  unfold hexDigitChar isHexDigitChar
  by_cases hu : u < 10
  · rw [if_pos hu]; omega
  · rw [if_neg hu]; omega

theorem mem_toHexAux : ∀ (f x : Nat) (acc : Bytes) (c : Nat),
    c ∈ toHexAux f x acc → c ∈ acc ∨ isHexDigitChar c := by
  intro f
  induction f with
  | zero => intro x acc c h; exact Or.inl h
  | succ f ih =>
      intro x acc c h
      by_cases hx : x = 0
      · rw [hx, toHexAux_zero] at h; exact Or.inl h
      · simp only [toHexAux, if_neg hx] at h
        rcases ih (x / 16) _ c h with hmem | hdig
        · rcases List.mem_cons.mp hmem with hc | hc
          · exact Or.inr (hc ▸ isHexDigitChar_hexDigitChar (x % 16)
              (Nat.mod_lt x (by norm_num)))
          · exact Or.inl hc
        · exact Or.inr hdig

theorem toHex_no_tilde (x : Nat) : 126 ∉ toHex x := by
  rw [toHex]
  by_cases hx : x = 0
  · simp [hx]
  · rw [if_neg hx]
    intro h
    rcases mem_toHexAux x x [] 126 h with hc | hc
    · simp at hc
    · rcases hc with ⟨_, h2⟩ | ⟨h1, _⟩ <;> omega

theorem mem_hexEncode : ∀ (l : List Nat) (c : Nat), (∀ b ∈ l, b < 256) →
    c ∈ hexEncode l → isHexDigitChar c := by
  intro l
  induction l with
  | nil => intro c _ h; simp [hexEncode] at h
  | cons b rest ih =>
      intro c hlt h
      have hb : b < 256 := hlt b (List.mem_cons_self b rest)
      simp only [hexEncode, List.mem_cons] at h
      rcases h with hc | hc | hc
      · exact hc ▸ isHexDigitChar_hexDigitChar _ (by omega)
      · exact hc ▸ isHexDigitChar_hexDigitChar _ (Nat.mod_lt b (by norm_num))
      · exact ih c (fun b2 hb2 => hlt b2 (List.mem_cons_of_mem b hb2)) hc

theorem hexEncode_no_tilde (l : List Nat) (hl : ∀ b ∈ l, b < 256) :
    126 ∉ hexEncode l := by
  intro h
  rcases mem_hexEncode l 126 hl h with ⟨_, h2⟩ | ⟨h1, _⟩ <;> omega

theorem splitOnceAux_append (sep : Nat) :
    ∀ (a r : Bytes), sep ∉ a → splitOnceAux sep (a ++ sep :: r) = some (a, r) := by
  intro a
  induction a with
  | nil => intro r _; simp [splitOnceAux]
  | cons c rest ih =>
      intro r h
      simp only [List.mem_cons, not_or] at h
      have hc : c ≠ sep := fun hcc => h.1 hcc.symm
      simp [splitOnceAux, hc, ih r h.2]

theorem split3_exact (sep : Nat) (s1 s2 s3 : Bytes)
    (h1 : sep ∉ s1) (h2 : sep ∉ s2) :
    split3 sep (s1 ++ sep :: (s2 ++ sep :: s3)) = [s1, s2, s3] := by
  rw [split3, splitOnceAux_append sep s1 _ h1]
  simp only [splitOnceAux_append sep s2 s3 h2]

theorem ctCompare_self : ∀ (a : Bytes), ctCompare a a = 0 := by
  have haux : ∀ (a : Bytes) (e : Nat),
      (List.foldl (fun e p => e ||| (p.1 ^^^ p.2)) e (a.zip a)) = e := by
    intro a
    induction a with
    | nil => intro e; rfl
    | cons x rest ih =>
        intro e
        simp only [List.zip_cons_cons, List.foldl_cons, Nat.xor_self,
          Nat.or_zero]
        exact ih e
  intro a
  exact haux a 0

/-- C8: for every MAC primitive producing byte output, secret, context,
positive max-age and value, verifying a signed value before its expiration
epoch succeeds and returns exactly the signed value. -/
theorem sign_verify_roundtrip (mac : Bytes → Bytes → Bytes)
    (hmac : ∀ s m b, b ∈ mac s m → b < 256)
    (secret context value : Bytes) (maxAgeSeconds now now2 : Nat)
    (hage : 0 < maxAgeSeconds) (htime : now2 < now + maxAgeSeconds) :
    VerifyValue mac now2 secret context
      (SignValue mac now secret context maxAgeSeconds value) = some value := by
  rw [SignValue, VerifyValue]
  have hsig : 126 ∉ signature mac secret context (toHex (now + maxAgeSeconds)) value := by
    exact hexEncode_no_tilde _ (fun b hb => hmac _ _ b hb)
  have hexp : 126 ∉ toHex (now + maxAgeSeconds) := toHex_no_tilde _
  rw [show signature mac secret context (toHex (now + maxAgeSeconds)) value ++
        126 :: toHex (now + maxAgeSeconds) ++ 126 :: value =
      signature mac secret context (toHex (now + maxAgeSeconds)) value ++
        126 :: (toHex (now + maxAgeSeconds) ++ 126 :: value) by simp]
  rw [split3_exact 126 _ _ _ hsig hexp]
  simp only [fromHex_toHex]
  rw [if_neg (by omega)]
  rw [if_neg (by simp)]
  rw [if_neg (by simp [ctCompare_self])]

/-- Witness for C8 at a concrete MAC, keys, value and times. -/
theorem sign_verify_roundtrip_witness :
    VerifyValue (fun _ _ => [7]) 5 (str ("sec")) (str ("uid"))
      (SignValue (fun _ _ => [7]) 4 (str ("sec")) (str ("uid")) 2 (str ("v~x")))
      = some (str ("v~x")) :=
  sign_verify_roundtrip (fun _ _ => [7]) (by intro s m b hb; simp at hb; omega)
    (str ("sec")) (str ("uid")) (str ("v~x")) 2 4 5 (by decide) (by decide)

/-! ## Claim C2: close-after-response after `prepare` -/

/-- C2 counterexample: an HTTP/1.1 GET whose `Connection` header is
`"close, te"` has a token list containing `close`, yet `prepare` leaves
close-after-response false, because the source compares the whole
lowercased header value against `"close"` rather than testing token
membership. -/
theorem prepare_close_counterexample :
    (prepareFlags 1001 ("GET")
        [(("Connection"), [str ("close, te")])]).map
      PrepareFlags.closeAfterResponse = some false ∧
    str ("close") ∈
      Header.getList [(("Connection"), [str ("close, te")])] ("Connection") := by
  decide

/-- The corrected close-after-response rule: the `Connection` decision uses
whole-value equality after lowercasing, and a request that is not
`GET`/`HEAD`, not chunked, and has no known content length forces
close-after-response regardless of the `Connection` header. -/
def closeAfterResponseSpec (version : Nat) (method : String)
    (header : Header) : Bool :=
  let conn := strLower (Header.get header ("Connection"))
  let cl := (requestContentLength header method).getD 0
  let te := Header.getList header ("Transfer-Encoding")
  let chunked : Bool := te.length > 0 ∧ te.head? = some (str ("chunked"))
  let fromConnection : Bool :=
    if 1001 ≤ version then conn = str ("close")
    else if version = 1000 ∧ 0 ≤ cl then ¬(conn = str ("keep-alive"))
    else true
  let unknownLengthBody : Bool :=
    ¬(method = ("GET") ∨ method = ("HEAD")) ∧ ¬chunked ∧ cl < 0
  fromConnection || unknownLengthBody

/-- C2 amended: after `prepare` succeeds, close-after-response is exactly
`closeAfterResponseSpec`: for HTTP/1.1 it is true iff the lowercased
`Connection` value equals `close`; for HTTP/1.0 with known content length
iff it differs from `keep-alive`; for other HTTP/1.0 requests it is true;
and additionally it is forced true for a non-`GET`/`HEAD` request with
neither chunked transfer encoding nor a known content length. -/
theorem prepare_close_spec (version : Nat) (method : String) (header : Header)
    (fl : PrepareFlags) (h : prepareFlags version method header = some fl) :
    fl.closeAfterResponse = closeAfterResponseSpec version method header := by
  unfold prepareFlags at h
  unfold closeAfterResponseSpec
  match hcl : requestContentLength header method with
  | none => rw [hcl] at h; exact absurd h (by simp)
  | some cl =>
      rw [hcl] at h
      simp only at h
      simp only [hcl, Option.getD_some]
      by_cases hgh : method = ("GET") ∨ method = ("HEAD")
      · rw [if_pos hgh] at h
        have hfl := (Option.some.injEq _ _).mp h
        rw [← hfl]
        have : ¬(¬(method = ("GET") ∨ method = ("HEAD")) ∧
            ¬(decide ((Header.getList header ("Transfer-Encoding")).length > 0 ∧
              (Header.getList header ("Transfer-Encoding")).head? =
                some (str ("chunked"))) = true) ∧ cl < 0) := by
          intro hcon
          exact hcon.1 hgh
        simp only [this]
        simp
      · rw [if_neg hgh] at h
        by_cases hch : (Header.getList header ("Transfer-Encoding")).length > 0 ∧
            (Header.getList header ("Transfer-Encoding")).head? =
              some (str ("chunked"))
        · rw [if_pos hch] at h
          have hfl := (Option.some.injEq _ _).mp h
          rw [← hfl]
          simp [hch]
        · rw [if_neg hch] at h
          by_cases hcl0 : 0 ≤ cl
          · rw [if_pos hcl0] at h
            have hfl := (Option.some.injEq _ _).mp h
            rw [← hfl]
            have : ¬(cl < 0) := by omega
            simp [hch, this]
          · rw [if_neg hcl0] at h
            have hfl := (Option.some.injEq _ _).mp h
            rw [← hfl]
            have hneg : cl < 0 := by omega
            have h10 : ¬(version = 1000 ∧ 0 ≤ cl) := fun hc => hcl0 hc.2
            by_cases hv : 1001 ≤ version
            · simp [hgh, hch, hneg, hv]
            · simp [hgh, hch, hneg, hv, h10]

/-- Witness for the amended C2 theorem at a concrete prepared request. -/
theorem prepare_close_spec_witness :
    (⟨true, BodyKind.identityReader, 0, true⟩ : PrepareFlags).closeAfterResponse =
      closeAfterResponseSpec 1000 ("GET") [] :=
  prepare_close_spec 1000 ("GET") [] ⟨true, BodyKind.identityReader, 0, true⟩
    (by decide)

/-! ## Claim C6: Transfer-Encoding stripping at respond -/

/-- Does `hay` start with `needle`? -/
def startsWithSeq : Bytes → Bytes → Bool
  | [], _ => true
  | _ :: _, [] => false
  | a :: as, b :: bs => a = b ∧ startsWithSeq as bs

/-- Does `hay` contain `needle` as a contiguous byte run? -/
def containsSeq (needle : Bytes) : Bytes → Bool
  | [] => needle.isEmpty
  | c :: rest => startsWithSeq needle (c :: rest) || containsSeq needle rest

/-- C6 counterexample: a handler header whose `Transfer-Encoding` entry is
`["", "gzip"]` survives the strip (the source only tests the first value
against the empty string), so the serialized header block on the wire
contains `Transfer-Encoding: gzip` even though the response is not
chunked. -/
theorem respond_te_counterexample :
    (respondCore true false 1001 ("POST") 200
        [(("Transfer-Encoding"), [[], str ("gzip")]),
         (("Content-Length"), [str ("3")])]).chunked = false ∧
    ((respondCore true false 1001 ("POST") 200
        [(("Transfer-Encoding"), [[], str ("gzip")]),
         (("Content-Length"), [str ("3")])]).header.lookup
      ("Transfer-Encoding")) = some [[], str ("gzip")] ∧
    containsSeq (str ("Transfer-Encoding: gzip\r\n"))
      (writeHttpHeader (respondCore true false 1001 ("POST") 200
        [(("Transfer-Encoding"), [[], str ("gzip")]),
         (("Content-Length"), [str ("3")])]).header) = true := by
  decide

theorem lookup_filter_self (m : Header) (k : String) :
    (m.filter (fun kv => kv.1 ≠ k)).lookup k = none := by
  induction m with
  | nil => rfl
  | cons kv rest ih =>
      obtain ⟨a, b⟩ := kv
      rw [List.filter_cons]
      by_cases hk : a = k
      · rw [if_neg (by simp [hk])]
        exact ih
      · rw [if_pos (by simp [hk])]
        simp only [List.lookup]
        have hba : (k == a) = false := by simp [Ne.symm hk]
        simp only [hba]
        exact ih

theorem lookup_filter_other (m : Header) (k j : String) (hkj : k ≠ j) :
    (m.filter (fun kv => kv.1 ≠ j)).lookup k = m.lookup k := by
  induction m with
  | nil => rfl
  | cons kv rest ih =>
      obtain ⟨a, b⟩ := kv
      rw [List.filter_cons]
      by_cases hj : a = j
      · rw [if_neg (by simp [hj])]
        have hba : (k == a) = false := by simp [hj, hkj]
        simp only [List.lookup, hba]
        exact ih
      · rw [if_pos (by simp [hj])]
        simp only [List.lookup]
        cases hba : (k == a) with
        | true => rfl
        | false => exact ih

theorem lookup_append_left_none (m1 m2 : Header) (k : String)
    (h : m1.lookup k = none) : (m1 ++ m2).lookup k = m2.lookup k := by
  induction m1 with
  | nil => rfl
  | cons kv rest ih =>
      obtain ⟨a, b⟩ := kv
      simp only [List.lookup, List.cons_append] at h ⊢
      cases hba : (k == a) with
      | true =>
          simp only [hba] at h
          exact absurd h (by simp)
      | false =>
          simp only [hba] at h ⊢
          exact ih h

theorem lookup_append_singleton_other (l : Header) (k j : String) (v : Bytes)
    (hkj : k ≠ j) : (l ++ [(j, [v])]).lookup k = l.lookup k := by
  induction l with
  | nil =>
      have hba : (k == j) = false := by simp [hkj]
      simp [List.lookup, hba]
  | cons kv rest ih =>
      obtain ⟨a, b⟩ := kv
      simp only [List.lookup, List.cons_append]
      cases hba : (k == a) with
      | true => rfl
      | false => exact ih

theorem lookup_del_self (m : Header) (k : String) :
    (Header.del m k).lookup k = none := lookup_filter_self m k

theorem lookup_del_other (m : Header) (k j : String) (hkj : k ≠ j) :
    (Header.del m j).lookup k = m.lookup k := lookup_filter_other m k j hkj

theorem lookup_set_self (m : Header) (k : String) (v : Bytes) :
    (Header.set m k v).lookup k = some [v] := by
  rw [Header.set, lookup_append_left_none _ _ _ (lookup_filter_self m k)]
  simp [List.lookup]

theorem lookup_set_other (m : Header) (k j : String) (v : Bytes) (hkj : k ≠ j) :
    (Header.set m j v).lookup k = m.lookup k := by
  rw [Header.set, lookup_append_singleton_other _ _ _ _ hkj,
    lookup_filter_other m k j hkj]

/-- C6 amended: whenever the first `Transfer-Encoding` value supplied by
the handler is non-empty, `Respond` strips the header, and the committed
header block carries `Transfer-Encoding` exactly when the core itself
chose chunked encoding, with the single value `chunked`. -/
theorem respond_strips_transfer_encoding (requestConsumed closeAfterResponse : Bool)
    (version : Nat) (method : String) (status : Nat) (header : Header)
    (hte : Header.get header ("Transfer-Encoding") ≠ []) :
    (respondCore requestConsumed closeAfterResponse version method status
        header).header.lookup ("Transfer-Encoding") =
      (if (respondCore requestConsumed closeAfterResponse version method status
            header).chunked then some [str ("chunked")] else none) := by
  unfold respondCore
  simp only [if_pos hte]
  set header1 := Header.del header ("Transfer-Encoding") with hh1
  have h1 : header1.lookup ("Transfer-Encoding") = none :=
    lookup_del_self header ("Transfer-Encoding")
  -- the entity-header step never touches Transfer-Encoding
  set step := (if status = 304 then
      (Header.del (Header.del header1 ("Content-Type")) ("Content-Length"),
       false, (if ¬requestConsumed then true else closeAfterResponse), (-1 : Int))
    else if Header.get header1 ("Content-Length") ≠ [] then
      (header1, false, (if ¬requestConsumed then true else closeAfterResponse),
       (parseAtoi (Header.get header1 ("Content-Length"))).getD 0)
    else if version < 1001 then (header1, true, true, (-1 : Int))
    else (header1, true, (if ¬requestConsumed then true else closeAfterResponse),
      (-1 : Int))) with hstep
  have h2 : step.1.lookup ("Transfer-Encoding") = none := by
    rw [hstep]
    by_cases h304 : status = 304
    · simp only [if_pos h304]
      rw [lookup_del_other _ ("Transfer-Encoding") ("Content-Length") (by decide),
        lookup_del_other _ ("Transfer-Encoding") ("Content-Type") (by decide)]
      exact h1
    · simp only [if_neg h304]
      by_cases hcl : Header.get header1 ("Content-Length") ≠ []
      · simp only [if_pos hcl]; exact h1
      · simp only [if_neg hcl]
        by_cases hv : version < 1001
        · simp only [if_pos hv]; exact h1
        · simp only [if_neg hv]; exact h1
  have h3 : ∀ hd : Header, hd.lookup ("Transfer-Encoding") = none →
      (if step.2.2.1 then Header.set hd ("Connection") (str ("close")) else hd).lookup
        ("Transfer-Encoding") = none := by
    intro hd hnone
    by_cases hc : step.2.2.1
    · simp only [if_pos hc]
      rw [lookup_set_other hd ("Transfer-Encoding") ("Connection") (str ("close"))
        (by decide)]
      exact hnone
    · simp only [if_neg hc]; exact hnone
  by_cases hchunk : (if method = ("HEAD") then false
      else if step.2.2.1 = true then false else step.2.1) = true
  · rw [if_pos hchunk, if_pos hchunk]
    exact lookup_set_self _ _ _
  · rw [if_neg hchunk, if_neg hchunk]
    exact h3 _ h2

/-- Witness for the amended C6 theorem: a handler-supplied
`Transfer-Encoding: gzip` on a chunked-eligible response. -/
theorem respond_strips_transfer_encoding_witness :
    (respondCore true false 1001 ("POST") 200
        [(("Transfer-Encoding"), [str ("gzip")])]).header.lookup
      ("Transfer-Encoding") =
      (if (respondCore true false 1001 ("POST") 200
            [(("Transfer-Encoding"), [str ("gzip")])]).chunked
       then some [str ("chunked")] else none) :=
  respond_strips_transfer_encoding true false 1001 ("POST") 200
    [(("Transfer-Encoding"), [str ("gzip")])] (by decide)

/-! ## Claim C7: Respond is effective at most once -/

/-- C7: from any not-yet-responded, not-hijacked transaction, the first
`Respond` call marks the transaction committed; every subsequent call
returns the dummy sink bound to `InvalidState`, leaves the transaction
(and hence the connection output) untouched, the dummy sink's writes and
flushes fail with `InvalidState` writing nothing, and after the first call
every request-body read (identity or chunked) returns the invalid-state
error without consuming input. -/
theorem respond_at_most_once (t : Txn) (status status2 : Nat)
    (header header2 : Header)
    (hh : t.hijacked = false) (hr : t.respondCalled = false) :
    ((t.respond status header).2.respondCalled = true ∧
     (t.respond status header).2.requestErr = some Err.invalidState) ∧
    (((t.respond status header).2.respond status2 header2).1 =
        RespondRet.dummy Err.invalidState ∧
     ((t.respond status header).2.respond status2 header2).2 =
        (t.respond status header).2 ∧
     ((t.respond status header).2.respond status2 header2).2.out =
        (t.respond status header).2.out) ∧
    (∀ p, nullBodyWrite (some Err.invalidState) p = (0, some Err.invalidState)) ∧
    nullBodyFlush (some Err.invalidState) = some Err.invalidState ∧
    (∀ len, identityRead (t.respond status header).2 len =
      ([], some Err.invalidState, (t.respond status header).2)) ∧
    (∀ len, chunkedRead (t.respond status header).2 len =
      ([], some Err.invalidState, (t.respond status header).2)) := by
  have hfirst : (t.respond status header).2 =
      { t with respondCalled := true, requestErr := some Err.invalidState,
               closeAfterResponse := (respondCore t.requestConsumed
                 t.closeAfterResponse t.version t.method status header).close,
               chunkedResponse := (respondCore t.requestConsumed
                 t.closeAfterResponse t.version t.method status header).chunked } := by
    rw [Txn.respond, if_neg (by rw [hh]; exact Bool.false_ne_true),
      if_neg (by rw [hr]; exact Bool.false_ne_true)]
  refine ⟨⟨by rw [hfirst], by rw [hfirst]⟩, ⟨?_, ?_, ?_⟩, fun p => rfl, rfl, ?_, ?_⟩
  · rw [Txn.respond, if_neg (by rw [hfirst, hh]; exact Bool.false_ne_true),
      if_pos (by rw [hfirst])]
  · rw [Txn.respond, if_neg (by rw [hfirst, hh]; exact Bool.false_ne_true),
      if_pos (by rw [hfirst])]
  · rw [Txn.respond, if_neg (by rw [hfirst, hh]; exact Bool.false_ne_true),
      if_pos (by rw [hfirst])]
  · intro len
    rw [identityRead.eq_def, hfirst]
  · intro len
    rw [chunkedRead.eq_def, hfirst]

/-- Witness for C7 at a concrete prepared transaction. -/
theorem respond_at_most_once_witness :
    (((Txn.fromPrepare ⟨false, BodyKind.identityReader, 0, true⟩ 1001 ("GET")
          false []).respond 200 []).2.respond 404 []).1 =
      RespondRet.dummy Err.invalidState ∧
    (∀ len, identityRead ((Txn.fromPrepare ⟨false, BodyKind.identityReader, 0, true⟩
          1001 ("GET") false []).respond 200 []).2 len =
      ([], some Err.invalidState,
        ((Txn.fromPrepare ⟨false, BodyKind.identityReader, 0, true⟩ 1001 ("GET")
          false []).respond 200 []).2)) := by
  have h := respond_at_most_once
    (Txn.fromPrepare ⟨false, BodyKind.identityReader, 0, true⟩ 1001 ("GET") false [])
    200 404 [] [] (by decide) (by decide)
  exact ⟨h.2.1.1, h.2.2.2.2.1⟩

/-! ## Claim C1: body reader bound for a known Content-Length -/

/-- C1 (code bug): for a `POST` with `Content-Length: 5`, `prepare` binds
the chunked body reader (not the identity reader) with `requestAvail = 5`.
On the stream `hello` followed by a pipelined `GET` request, the bound
reader returns the five body bytes, then consumes two bytes of the next
request and fails with the bad-chunked-format error instead of returning
EOF; the identity reader from the same state returns exactly the five
bytes, then EOF, leaving the next request intact. -/
theorem contentLength_body_binding_bug :
    (prepareFlags 1001 ("POST") [(("Content-Length"), [str ("5")])] =
      some ⟨false, BodyKind.chunkedBodyReader, 5, false⟩) ∧
    (let t0 := Txn.fromPrepare ⟨false, BodyKind.chunkedBodyReader, 5, false⟩
        1001 ("POST") false (str ("hello") ++ str ("GET / HTTP/1.1\r\n\r\n"));
     let r1 := readBody BodyKind.chunkedBodyReader t0 100
     let r2 := readBody BodyKind.chunkedBodyReader r1.2.2 100
     r1.1 = str ("hello") ∧ r1.2.1 = none ∧
     r1.2.2.input = str ("T / HTTP/1.1\r\n\r\n") ∧
     r2.1 = [] ∧ r2.2.1 = some Err.badChunked ∧
     r2.2.1 ≠ some Err.eof) ∧
    (let t0 := Txn.fromPrepare ⟨false, BodyKind.chunkedBodyReader, 5, false⟩
        1001 ("POST") false (str ("hello") ++ str ("GET / HTTP/1.1\r\n\r\n"));
     let i1 := identityRead t0 100
     let i2 := identityRead i1.2.2 100
     i1.1 = str ("hello") ∧ i1.2.1 = none ∧
     i2.1 = [] ∧ i2.2.1 = some Err.eof ∧
     i2.2.2.input = str ("GET / HTTP/1.1\r\n\r\n")) := by
  decide

/-! ## Claim C3: chunked encoder framing -/

theorem hexPad_length : ∀ (k v : Nat), (hexPad k v).length = k := by
  intro k
  induction k with
  | zero => intro v; rfl
  | succ k ih => intro v; simp [hexPad, ih]

theorem mem_hexPad : ∀ (k v c : Nat), c ∈ hexPad k v → isHexDigitChar c := by
  intro k
  induction k with
  | zero => intro v c h; simp [hexPad] at h
  | succ k ih =>
      intro v c h
      simp only [hexPad, List.mem_append, List.mem_singleton] at h
      rcases h with h | h
      · exact ih (v / 16) c h
      · exact h ▸ isHexDigitChar_hexDigitChar _ (Nat.mod_lt v (by norm_num))

theorem serializeChunks_foldr (nd : Nat) : ∀ (cs : List Bytes) (B : Bytes),
    List.foldr (fun d acc => hexPad nd d.length ++ [13, 10] ++ d ++ [13, 10] ++ acc)
      B cs = serializeChunks nd cs ++ B := by
  intro cs
  induction cs with
  | nil => intro B; simp [serializeChunks]
  | cons d rest ih =>
      intro B
      rw [List.foldr_cons, ih B]
      conv_rhs => rw [show serializeChunks nd (d :: rest) =
        hexPad nd d.length ++ [13, 10] ++ d ++ [13, 10] ++ serializeChunks nd rest
        from rfl]
      simp [List.append_assoc]

theorem serializeChunks_concat (nd : Nat) (cs : List Bytes) (d : Bytes) :
    serializeChunks nd (cs ++ [d]) =
      serializeChunks nd cs ++
        (hexPad nd d.length ++ [13, 10] ++ d ++ [13, 10]) := by
  unfold serializeChunks
  rw [List.foldr_append, serializeChunks_foldr]
  congr 1
  simp

theorem ndigitLoop_acc_le : ∀ (f n acc : Nat), acc ≤ ndigitLoop f n acc := by
  intro f
  induction f with
  | zero => intro n acc; exact Nat.le_refl acc
  | succ f ih =>
      intro n acc
      by_cases hn : n = 0
      · simp [ndigitLoop, hn]
      · simp only [ndigitLoop, if_neg hn]
        exact Nat.le_trans (Nat.le_succ acc) (ih (n / 16) (acc + 1))

theorem ndigitOf_pos (b : Nat) (hb : b ≠ 0) : 1 ≤ ndigitOf b := by
  unfold ndigitOf
  match b, hb with
  | b + 1, _ =>
      simp only [ndigitLoop, if_neg (Nat.succ_ne_zero b)]
      exact ndigitLoop_acc_le b ((b + 1) / 16) 1

theorem listCopy_length : ∀ (src : Bytes) (l : List Nat) (off : Nat),
    (listCopy l off src).length = l.length := by
  intro src
  induction src with
  | nil => intro l off; rfl
  | cons x xs ih => intro l off; simp [listCopy, ih]

theorem take_set_succ (l : List Nat) (i : Nat) (x : Nat) (h : i < l.length) :
    (l.set i x).take (i + 1) = l.take i ++ [x] := by
  rw [List.set_eq_take_cons_drop x h]
  have hlen : (l.take i).length = i := by simp; omega
  rw [show i + 1 = (l.take i).length + 1 by rw [hlen], List.take_append]
  simp

theorem listCopy_take_full : ∀ (src : Bytes) (l : List Nat) (off : Nat),
    off + src.length ≤ l.length →
    (listCopy l off src).take (off + src.length) = l.take off ++ src := by
  intro src
  induction src with
  | nil => intro l off h; simp [listCopy]
  | cons x xs ih =>
      intro l off h
      simp only [List.length_cons] at h
      have hoff : off < l.length := by omega
      simp only [listCopy, List.length_cons]
      rw [show off + (xs.length + 1) = (off + 1) + xs.length by omega]
      rw [ih (l.set off x) (off + 1) (by simp; omega)]
      rw [take_set_succ l off x hoff]
      simp

theorem patchHex_length : ∀ (k : Nat) (buf : List Nat) (s v : Nat),
    (patchHex buf s k v).length = buf.length := by
  intro k
  induction k with
  | zero => intro buf s v; rfl
  | succ k ih => intro buf s v; simp [patchHex, ih]

theorem set01_two (l : List Nat) (h : 2 ≤ l.length) (a b : Nat) :
    (l.set 0 a).set 1 b = a :: b :: l.drop 2 := by
  match l, h with
  | x :: y :: t, _ => simp [List.set]

theorem patchHex_eq : ∀ (k : Nat) (buf : List Nat) (s v : Nat),
    s + k ≤ buf.length →
    patchHex buf s k v = buf.take s ++ hexPad k v ++ buf.drop (s + k) := by
  intro k
  induction k with
  | zero => intro buf s v h; simp [patchHex, hexPad]
  | succ k ih =>
      intro buf s v h
      have hsk : s + k < buf.length := by omega
      simp only [patchHex]
      rw [ih (buf.set (s + k) (hexDigitChar (v % 16))) s (v / 16)
        (by rw [List.length_set]; omega)]
      have htake : (buf.set (s + k) (hexDigitChar (v % 16))).take s = buf.take s := by
        rw [List.set_take]
        exact List.set_eq_of_length_le (by rw [List.length_take]; omega)
      have hdrop : (buf.set (s + k) (hexDigitChar (v % 16))).drop (s + k) =
          hexDigitChar (v % 16) :: buf.drop (s + k + 1) := by
        rw [List.drop_set, if_neg (by omega : ¬(s + k < s + k)), Nat.sub_self,
          List.drop_eq_getElem_cons hsk, List.set_cons_zero]
      rw [htake, hdrop]
      show buf.take s ++ hexPad k (v / 16) ++
          (hexDigitChar (v % 16) :: buf.drop (s + k + 1)) =
        buf.take s ++ (hexPad k (v / 16) ++ [hexDigitChar (v % 16)]) ++
          buf.drop (s + (k + 1))
      rw [show s + (k + 1) = s + k + 1 by omega]
      simp

/-- Invariant of a live chunked encoder created with buffer size `b` and an
empty prelude: no error, correct digit width, fixed buffer length, chunk
start at 0, write position between the reserved size line and the CRLF
reserve, and everything on the wire so far a sequence of complete,
non-empty, well-framed chunks. -/
structure CInv (b : Nat) (w : ChunkedRB) : Prop where
  herr : w.err = none
  hnd : w.ndigit = ndigitOf b
  hbuf : w.buf.length = b
  hs : w.s = 0
  hlo : ndigitOf b + 2 ≤ w.n
  hhi : w.n + 2 ≤ b
  hout : ∃ cs : List Bytes, (∀ d ∈ cs, d ≠ []) ∧
    w.out = serializeChunks (ndigitOf b) cs

theorem finalizeChunk_empty (w : ChunkedRB) (h : w.s + w.ndigit + 2 = w.n) :
    finalizeChunk w = { w with n := w.s } := by
  rw [finalizeChunk, if_pos h]

theorem finalizeChunk_nonempty (b : Nat) (w : ChunkedRB) (hw : CInv b w)
    (hne : w.s + w.ndigit + 2 ≠ w.n) :
    (finalizeChunk w).n = w.n + 2 ∧
    (finalizeChunk w).buf.length = b ∧
    (finalizeChunk w).s = 0 ∧
    (finalizeChunk w).err = none ∧
    (finalizeChunk w).ndigit = w.ndigit ∧
    (finalizeChunk w).out = w.out ∧
    (finalizeChunk w).buf.take (w.n + 2) =
      hexPad w.ndigit (w.n - w.ndigit - 2) ++ [13, 10] ++
        ((w.buf.take w.n).drop (w.ndigit + 2)) ++ [13, 10] := by
  obtain ⟨herr, hnd, hbuf, hs, hlo0, hhi0, _⟩ := hw
  have hlo : w.ndigit + 2 ≤ w.n := by rw [hnd]; exact hlo0
  have hhi : w.n + 2 ≤ w.buf.length := by rw [hbuf]; omega
  have hn1 : w.n < w.buf.length := by omega
  have hn2 : w.n + 1 < (w.buf.set w.n 13).length := by rw [List.length_set]; omega
  have hfc : finalizeChunk w = { w with
      buf := patchHex ((((w.buf.set w.n 13).set (w.n + 1) 10).set
          (w.s + w.ndigit) 13).set (w.s + w.ndigit + 1) 10)
        w.s w.ndigit (w.n - w.s - w.ndigit - 2),
      n := w.n + 2 } := by
    rw [finalizeChunk, if_neg hne]
  set buf1 := (w.buf.set w.n 13).set (w.n + 1) 10 with hbuf1
  set buf2 := (buf1.set (w.s + w.ndigit) 13).set (w.s + w.ndigit + 1) 10 with hbuf2
  have hb1len : buf1.length = w.buf.length := by rw [hbuf1]; simp
  have hb2len : buf2.length = w.buf.length := by rw [hbuf2]; simp [hb1len]
  refine ⟨by rw [hfc], ?_, by rw [hfc, hs], by rw [hfc, herr], by rw [hfc],
    by rw [hfc], ?_⟩
  · rw [hfc]
    show (patchHex buf2 w.s w.ndigit (w.n - w.s - w.ndigit - 2)).length = b
    rw [patchHex_length, hb2len, hbuf]
  · rw [hfc]
    show (patchHex buf2 w.s w.ndigit (w.n - w.s - w.ndigit - 2)).take (w.n + 2) = _
    have hple : w.s + w.ndigit ≤ buf2.length := by rw [hb2len]; omega
    have hptch : patchHex buf2 w.s w.ndigit (w.n - w.s - w.ndigit - 2) =
        hexPad w.ndigit (w.n - w.ndigit - 2) ++ buf2.drop w.ndigit := by
      rw [patchHex_eq w.ndigit buf2 w.s (w.n - w.s - w.ndigit - 2) hple, hs]
      simp
    have hdrop2 : buf2.drop w.ndigit = 13 :: 10 :: buf1.drop (w.ndigit + 2) := by
      rw [hbuf2, hs]
      simp only [Nat.zero_add]
      rw [List.drop_set, if_neg (by omega : ¬(w.ndigit + 1 < w.ndigit))]
      rw [List.drop_set, if_neg (by omega : ¬(w.ndigit < w.ndigit))]
      rw [Nat.sub_self, show w.ndigit + 1 - w.ndigit = 1 by omega]
      have h2le : 2 ≤ (buf1.drop w.ndigit).length := by
        rw [List.length_drop]; omega
      rw [set01_two _ h2le 13 10, List.drop_drop]
    have htake1 : buf1.take (w.n + 2) = (w.buf.take w.n ++ [13]) ++ [10] := by
      rw [hbuf1, take_set_succ (w.buf.set w.n 13) (w.n + 1) 10 hn2,
        take_set_succ w.buf w.n 13 hn1]
    have hlen13 : (w.buf.take w.n).length = w.n := by rw [List.length_take]; omega
    have hdt : (buf1.drop (w.ndigit + 2)).take (w.n - w.ndigit) =
        (w.buf.take w.n).drop (w.ndigit + 2) ++ [13, 10] := by
      rw [List.take_drop, show w.ndigit + 2 + (w.n - w.ndigit) = w.n + 2 by omega,
        htake1]
      rw [List.append_assoc]
      rw [List.drop_append_of_le_length (by rw [hlen13]; omega)]
      rfl
    rw [hptch, hdrop2]
    rw [show w.n + 2 = (hexPad w.ndigit (w.n - w.ndigit - 2)).length +
        (w.n - w.ndigit + 2) by rw [hexPad_length]; omega]
    rw [List.take_append]
    rw [show w.n - w.ndigit + 2 = (w.n - w.ndigit + 1) + 1 by omega]
    rw [List.take_succ_cons, List.take_succ_cons, hdt]
    simp

theorem flush_eq (w : ChunkedRB) (h : w.err = none) :
    w.flush = { (if 0 < (finalizeChunk w).n then writeBuf (finalizeChunk w)
                 else finalizeChunk w) with
      s := 0,
      n := (if 0 < (finalizeChunk w).n then writeBuf (finalizeChunk w)
            else finalizeChunk w).ndigit + 2 } := by
  rw [ChunkedRB.flush, if_neg (by rw [h]; simp)]

/-- Flushing preserves the invariant and resets the write position; an
empty current chunk emits nothing. -/
theorem flush_spec (b : Nat) (hb : ndigitOf b + 4 < b) (w : ChunkedRB)
    (hw : CInv b w) :
    CInv b w.flush ∧ w.flush.n = ndigitOf b + 2 ∧
      (w.s + w.ndigit + 2 = w.n → w.flush.out = w.out) := by
  have hfe := flush_eq w hw.herr
  by_cases hemp : w.s + w.ndigit + 2 = w.n
  · have h1 := finalizeChunk_empty w hemp
    have hn0 : (finalizeChunk w).n = 0 := by rw [h1, hw.hs]
    rw [hfe, if_neg (by rw [hn0]; omega)]
    refine ⟨⟨?_, ?_, ?_, ?_, ?_, ?_, ?_⟩, ?_, ?_⟩
    · show (finalizeChunk w).err = none
      rw [h1]; exact hw.herr
    · show (finalizeChunk w).ndigit = ndigitOf b
      rw [h1]; exact hw.hnd
    · show (finalizeChunk w).buf.length = b
      rw [h1]; exact hw.hbuf
    · rfl
    · show ndigitOf b + 2 ≤ (finalizeChunk w).ndigit + 2
      rw [h1, hw.hnd]
    · show (finalizeChunk w).ndigit + 2 + 2 ≤ b
      rw [h1, hw.hnd]; omega
    · show ∃ cs, _ ∧ (finalizeChunk w).out = serializeChunks (ndigitOf b) cs
      rw [h1]
      exact hw.hout
    · show (finalizeChunk w).ndigit + 2 = ndigitOf b + 2
      rw [h1, hw.hnd]
    · intro _
      show (finalizeChunk w).out = w.out
      rw [h1]
  · obtain ⟨hn, hlen, hsf, herrf, hndf, houtf, htake⟩ :=
      finalizeChunk_nonempty b w hw hemp
    rw [hfe, if_pos (by rw [hn]; omega)]
    obtain ⟨cs, hcs, hcseq⟩ := hw.hout
    have hnlen : w.n ≤ w.buf.length := by
      have := hw.hhi; have := hw.hbuf; omega
    have hdlen : ((w.buf.take w.n).drop (w.ndigit + 2)).length =
        w.n - w.ndigit - 2 := by
      rw [List.length_drop, List.length_take]
      have h1 := hw.hhi
      have h2 := hw.hbuf
      have h3 := hw.hlo
      have h4 := hw.hnd
      omega
    have hdne : (w.buf.take w.n).drop (w.ndigit + 2) ≠ [] := by
      intro hc
      rw [hc] at hdlen
      simp at hdlen
      have h5 := hw.hlo
      have h6 := hw.hnd
      have h7 := hw.hs
      exact hemp (by omega)
    refine ⟨⟨?_, ?_, ?_, ?_, ?_, ?_, ?_⟩, ?_, ?_⟩
    · show (finalizeChunk w).err = none
      exact herrf
    · show (finalizeChunk w).ndigit = ndigitOf b
      rw [hndf]; exact hw.hnd
    · show (finalizeChunk w).buf.length = b
      exact hlen
    · rfl
    · show ndigitOf b + 2 ≤ (finalizeChunk w).ndigit + 2
      rw [hndf, hw.hnd]
    · show (finalizeChunk w).ndigit + 2 + 2 ≤ b
      rw [hndf, hw.hnd]; omega
    · show ∃ cs2, _ ∧ (finalizeChunk w).out ++
          (finalizeChunk w).buf.take (finalizeChunk w).n =
          serializeChunks (ndigitOf b) cs2
      refine ⟨cs ++ [(w.buf.take w.n).drop (w.ndigit + 2)], ?_, ?_⟩
      · intro d hd
        rcases List.mem_append.mp hd with hd | hd
        · exact hcs d hd
        · rw [List.mem_singleton.mp hd]
          exact hdne
      · rw [houtf, hn, htake, hcseq, serializeChunks_concat, hdlen, hw.hnd]
    · show (finalizeChunk w).ndigit + 2 = ndigitOf b + 2
      rw [hndf, hw.hnd]
    · intro hc
      exact absurd hc hemp

theorem writeLoop_succ (w : ChunkedRB) (p : Bytes) (f : Nat) :
    writeLoop w p (f + 1) =
      (if p = [] then w
       else if w.buf.length - w.n - 2 = 0 then writeLoop w.flush p f
       else writeLoop { w with buf := listCopy w.buf w.n p, n := w.n + min (w.buf.length - w.n - 2) p.length }
         (p.drop (min (w.buf.length - w.n - 2) p.length)) f) := by
  rw [writeLoop.eq_def]

theorem copy_step_inv (b : Nat) (w : ChunkedRB) (p : Bytes) (hw : CInv b w) :
    CInv b { w with buf := listCopy w.buf w.n p, n := w.n + min (w.buf.length - w.n - 2) p.length } := by
  obtain ⟨herr, hnd, hbuf, hs, hlo, hhi, hout⟩ := hw
  refine ⟨herr, hnd, ?_, hs, ?_, ?_, hout⟩
  · show (listCopy w.buf w.n p).length = b
    rw [listCopy_length, hbuf]
  · show ndigitOf b + 2 ≤ w.n + min (w.buf.length - w.n - 2) p.length
    omega
  · show w.n + min (w.buf.length - w.n - 2) p.length + 2 ≤ b
    have hmin : min (w.buf.length - w.n - 2) p.length ≤ w.buf.length - w.n - 2 :=
      Nat.min_le_left _ _
    omega

theorem writeLoop_inv (b : Nat) (hb : ndigitOf b + 4 < b) :
    ∀ (L : Nat) (p : Bytes) (fuel : Nat) (w : ChunkedRB), p.length = L →
      CInv b w → 2 * L + 1 ≤ fuel → CInv b (writeLoop w p fuel) := by
  intro L
  induction L using Nat.strong_induction_on with
  | _ L ih =>
    intro p fuel w hL hw hfuel
    match fuel, hfuel with
    | f + 1, hfuel =>
      rw [writeLoop_succ]
      by_cases hp : p = []
      · rw [if_pos hp]; exact hw
      · rw [if_neg hp]
        have hp1 : 1 ≤ p.length :=
          Nat.pos_of_ne_zero (fun hc => hp (List.length_eq_zero.mp hc))
        by_cases hav : w.buf.length - w.n - 2 = 0
        · rw [if_pos hav]
          obtain ⟨hwf, hwn, _⟩ := flush_spec b hb w hw
          match f, (show 1 ≤ f by omega) with
          | f2 + 1, _ =>
            rw [writeLoop_succ, if_neg hp]
            have hav2 : ¬(w.flush.buf.length - w.flush.n - 2 = 0) := by
              rw [hwf.hbuf, hwn]; omega
            rw [if_neg hav2]
            have hm1 : 1 ≤ min (w.flush.buf.length - w.flush.n - 2) p.length :=
              Nat.le_min.mpr ⟨by rw [hwf.hbuf, hwn]; omega, hp1⟩
            refine ih (p.drop (min (w.flush.buf.length - w.flush.n - 2) p.length)).length
              (by rw [List.length_drop]; omega) _ f2 _ rfl
              (copy_step_inv b w.flush p hwf) ?_
            rw [List.length_drop]
            omega
        · rw [if_neg hav]
          have hm1 : 1 ≤ min (w.buf.length - w.n - 2) p.length :=
            Nat.le_min.mpr ⟨Nat.pos_of_ne_zero hav, hp1⟩
          refine ih (p.drop (min (w.buf.length - w.n - 2) p.length)).length
            (by rw [List.length_drop]; omega) _ f _ rfl
            (copy_step_inv b w p hw) ?_
          rw [List.length_drop]
          omega

theorem write_inv (b : Nat) (hb : ndigitOf b + 4 < b) (w : ChunkedRB)
    (p : Bytes) (hw : CInv b w) : CInv b (w.write p) := by
  rw [ChunkedRB.write, if_neg (by rw [hw.herr]; simp)]
  exact writeLoop_inv b hb p.length p (2 * p.length + 1) w rfl hw (Nat.le_refl _)

theorem runOps_inv (b : Nat) (hb : ndigitOf b + 4 < b) :
    ∀ (ops : List COp) (w : ChunkedRB), CInv b w → CInv b (runOps w ops) := by
  intro ops
  induction ops with
  | nil => intro w hw; exact hw
  | cons op rest ih =>
      intro w hw
      match op with
      | .write p => exact ih _ (write_inv b hb w p hw)
      | .flush => exact ih _ (flush_spec b hb w hw).1

theorem new_inv (b : Nat) (hb : ndigitOf b + 4 < b) :
    CInv b (newChunkedResponseBody [] b) := by
  have hb0 : 0 < b := by omega
  have hnew : newChunkedResponseBody [] b =
      { err := none, buf := List.replicate b 0, s := 0, n := ndigitOf b + 2,
        ndigit := ndigitOf b, out := [] } := by
    rw [newChunkedResponseBody, if_pos (by simpa using hb0)]
    simp [listCopy]
  rw [hnew]
  exact ⟨rfl, rfl, by simp, rfl, Nat.le_refl _,
    by show ndigitOf b + 2 + 2 ≤ b; omega, ⟨[], by simp, rfl⟩⟩

theorem finish_out (w : ChunkedRB) (h : w.err = none) :
    (w.finish).1.out =
      (let w2 := if (finalizeChunk w).buf.length < (finalizeChunk w).n + 5
         then { writeBuf (finalizeChunk w) with n := 0 } else finalizeChunk w;
       w2.out ++ (listCopy w2.buf w2.n (str ("0\r\n\r\n"))).take (w2.n + 5)) := by
  rw [ChunkedRB.finish, if_neg (by rw [h]; simp)]
  rfl

/-- Model of `finish` appends the terminator `0\r\n\r\n` as the last bytes of a
well-framed chunk stream. -/
theorem finish_framing (b : Nat) (hb : ndigitOf b + 4 < b) (w : ChunkedRB)
    (hw : CInv b w) :
    ∃ cs : List Bytes, (∀ d ∈ cs, d ≠ []) ∧
      (w.finish).1.out = serializeChunks (ndigitOf b) cs ++ [48, 13, 10, 13, 10] := by
  obtain ⟨cs, hcs, hcseq⟩ := hw.hout
  rw [finish_out w hw.herr]
  by_cases hemp : w.s + w.ndigit + 2 = w.n
  · -- the pending chunk is empty: only the terminator is emitted
    have h1 := finalizeChunk_empty w hemp
    have hguard : ¬((finalizeChunk w).buf.length < (finalizeChunk w).n + 5) := by
      rw [h1]
      show ¬(w.buf.length < w.s + 5)
      rw [hw.hbuf, hw.hs]
      omega
    simp only [if_neg hguard]
    refine ⟨cs, hcs, ?_⟩
    rw [h1]
    show w.out ++ (listCopy w.buf w.s (str ("0\r\n\r\n"))).take (w.s + 5) = _
    have h5 : (listCopy w.buf w.s [48, 13, 10, 13, 10]).take (w.s + 5) =
        w.buf.take w.s ++ [48, 13, 10, 13, 10] :=
      listCopy_take_full [48, 13, 10, 13, 10] w.buf w.s
        (by simp [hw.hbuf, hw.hs]; omega)
    rw [show str ("0\r\n\r\n") = [48, 13, 10, 13, 10] from rfl, h5, hcseq, hw.hs]
    simp
  · obtain ⟨hn, hlen, hsf, herrf, hndf, houtf, htake⟩ :=
      finalizeChunk_nonempty b w hw hemp
    have hdlen : ((w.buf.take w.n).drop (w.ndigit + 2)).length =
        w.n - w.ndigit - 2 := by
      rw [List.length_drop, List.length_take]
      have h1 := hw.hhi
      have h2 := hw.hbuf
      have h3 := hw.hlo
      have h4 := hw.hnd
      omega
    have hdne : (w.buf.take w.n).drop (w.ndigit + 2) ≠ [] := by
      intro hc
      rw [hc] at hdlen
      simp at hdlen
      have h5 := hw.hlo
      have h6 := hw.hnd
      have h7 := hw.hs
      exact hemp (by omega)
    refine ⟨cs ++ [(w.buf.take w.n).drop (w.ndigit + 2)], ?_, ?_⟩
    · intro d hd
      rcases List.mem_append.mp hd with hd | hd
      · exact hcs d hd
      · rw [List.mem_singleton.mp hd]
        exact hdne
    · rw [serializeChunks_concat, hdlen, ← hw.hnd]
      by_cases hguard : (finalizeChunk w).buf.length < (finalizeChunk w).n + 5
      · simp only [if_pos hguard]
        have h5 : (listCopy (finalizeChunk w).buf 0 [48, 13, 10, 13, 10]).take
            (0 + 5) = (finalizeChunk w).buf.take 0 ++ [48, 13, 10, 13, 10] :=
          listCopy_take_full [48, 13, 10, 13, 10] (finalizeChunk w).buf 0
            (by simp [hlen]; omega)
        show (finalizeChunk w).out ++
            (finalizeChunk w).buf.take (finalizeChunk w).n ++
            (listCopy (finalizeChunk w).buf 0
              (str ("0\r\n\r\n"))).take (0 + 5) = _
        rw [show str ("0\r\n\r\n") = [48, 13, 10, 13, 10] from rfl, h5, houtf,
          hn, htake, hcseq]
        simp [List.append_assoc, hw.hnd]
      · simp only [if_neg hguard]
        show (finalizeChunk w).out ++
            (listCopy (finalizeChunk w).buf (finalizeChunk w).n
              (str ("0\r\n\r\n"))).take ((finalizeChunk w).n + 5) = _
        have h5 : (listCopy (finalizeChunk w).buf (finalizeChunk w).n
            [48, 13, 10, 13, 10]).take ((finalizeChunk w).n + 5) =
            (finalizeChunk w).buf.take (finalizeChunk w).n ++
              [48, 13, 10, 13, 10] :=
          listCopy_take_full [48, 13, 10, 13, 10] (finalizeChunk w).buf
            (finalizeChunk w).n (by simp; omega)
        rw [show str ("0\r\n\r\n") = [48, 13, 10, 13, 10] from rfl, h5, houtf,
          hn, htake, hcseq]
        simp [List.append_assoc, hw.hnd]

/-- C3 counterexample: the code's digit-field width at buffer size 16 is 2
(the number of hex digits of 16), while ceil(log16 16) is 1, and the
emitted chunk for a one-byte write indeed carries the two-digit prefix
`01`. -/
theorem chunked_ndigit_counterexample :
    ndigitOf 16 = 2 ∧ Nat.clog 16 16 = 1 ∧ ndigitOf 16 ≠ Nat.clog 16 16 ∧
    chunkedRun 16 [COp.write [65]] =
      [48, 49, 13, 10, 65, 13, 10, 48, 13, 10, 13, 10] := by
  have hclog : Nat.clog 16 16 = 1 := by
    have h := Nat.clog_pow 16 1 (by norm_num)
    simpa using h
  exact ⟨by decide, hclog, by rw [hclog]; decide, by decide⟩

/-- C3 amended: for every buffer size `b` large enough for the encoder to
make progress (`ndigit + 4 < b`, with `ndigit` the number of hex digits of
`b`) and every sequence of handler writes and flushes, the bytes the
encoder emits are a sequence of non-empty chunks — each an `ndigit`-wide
zero-padded hex size field of hex-digit bytes, CRLF, the data, CRLF —
terminated by `0\r\n\r\n` as the last bytes; empty flushes emit nothing. -/
theorem chunked_encoder_framing (b : Nat) (ops : List COp)
    (hb : ndigitOf b + 4 < b) :
    (∃ cs : List Bytes, (∀ d ∈ cs, d ≠ []) ∧
       chunkedRun b ops = serializeChunks (ndigitOf b) cs ++ [48, 13, 10, 13, 10]) ∧
    (∀ v, (hexPad (ndigitOf b) v).length = ndigitOf b ∧
       ∀ c ∈ hexPad (ndigitOf b) v, isHexDigitChar c) ∧
    (∀ w : ChunkedRB, CInv b w → w.s + w.ndigit + 2 = w.n →
       w.flush.out = w.out) := by
  refine ⟨?_, fun v => ⟨hexPad_length _ v, fun c hc => mem_hexPad _ v c hc⟩,
    fun w hw hemp => (flush_spec b hb w hw).2.2 hemp⟩
  show ∃ cs : List Bytes, (∀ d ∈ cs, d ≠ []) ∧
    ((runOps (newChunkedResponseBody [] b) ops).finish).1.out =
      serializeChunks (ndigitOf b) cs ++ [48, 13, 10, 13, 10]
  exact finish_framing b hb (runOps (newChunkedResponseBody [] b) ops)
    (runOps_inv b hb ops _ (new_inv b hb))

/-- Witness for the amended C3 theorem at the server's buffer size 4096
and the handler run of test case (b). -/
theorem chunked_encoder_framing_witness :
    (∃ cs : List Bytes, (∀ d ∈ cs, d ≠ []) ∧
       chunkedRun 4096 [COp.write (str ("Hello"))] =
         serializeChunks (ndigitOf 4096) cs ++ [48, 13, 10, 13, 10]) ∧
    (∀ v, (hexPad (ndigitOf 4096) v).length = ndigitOf 4096 ∧
       ∀ c ∈ hexPad (ndigitOf 4096) v, isHexDigitChar c) ∧
    (∀ w : ChunkedRB, CInv 4096 w → w.s + w.ndigit + 2 = w.n →
       w.flush.out = w.out) :=
  chunked_encoder_framing 4096 [COp.write (str ("Hello"))] (by decide)

end Twister
